import Mathlib

/-!
# mc68k: interrupt controller and peripheral bus router

A shallow embedding of `src/mc68k.h` and `src/mc68k.cpp`.

* `uint8_t`, `uint32_t` and `uint64_t` values are natural numbers and the C `int` reported by
  the execution core is an integer.  Vectors, levels and bus addresses undergo no arithmetic
  other than the bitwise AND with the peripheral mask.  Where the source does arithmetic, the
  width is explicit: `m_cycles += deltaCycles` is taken modulo 2^64, the conversions to
  `uint32_t` and the loop variable of `dumpAssembly` modulo 2^32.
* `std::array<std::deque<uint8_t>, 8>` is a function `Fin 8 → List Nat`; the head of the list
  is the front of the deque.  Indexing the array with a level of 8 or more is undefined
  behaviour in the source, and the embedded operations return `none` there.
* The execution core (Musashi) is external.  Its interrupt pin is represented by the level
  last passed to `m68k_set_irq` together with the history of all levels passed; a call of
  `m68k_execute`, `m68k_pulse_reset` or `m68k_set_reg` is represented by what it reports and
  what it does to the controller, and the disassembler by the text and size it yields.
* `assert` is the macro of `<cassert>`; whether it is active depends on `NDEBUG`, which is a
  parameter.
* Loops that the source does not bound carry a `fuel` argument and yield `none` when it runs
  out.
* The three peripheral blocks (`Gpt`, `Sim`, `Qsm`) are declared outside `src/`.  Their state
  types are type parameters and their operations are parameters of the router.
-/

namespace mc68k

/-- Modelled from the spec: the AUTOVECTOR sentinel returned on acknowledge when no explicit
vector is pending.  The constant `M68K_INT_ACK_AUTOVECTOR` is declared in the execution core's
header, which is not under `src/`; Musashi defines it as `0xffffffff`. -/
def M68K_INT_ACK_AUTOVECTOR : Nat := 0xffffffff

/-- Modelled from the spec: the execution core's interrupt pin (`setInterruptPin(level)`).
`int_level` is the level last asserted with `m68k_set_irq`, `irqWrites` lists every level
ever passed to `m68k_set_irq`, oldest first. -/
structure CpuState where
  int_level : Nat
  irqWrites : List Nat

/-- The data members of `class Mc68k` (mc68k.h:102-111).  `G`, `S` and `Q` are the state types
of the blocks `Gpt`, `Sim` and `Qsm`. -/
structure Mc68k (G S Q : Type) where
  m_cpuState : CpuState
  m_gpt : G
  m_sim : S
  m_qsm : Q
  m_pendingInterrupts : Fin 8 → List Nat
  m_cycles : Nat

variable {G S Q : Type}

/-- Modelled from the spec: `m68k_set_irq(getCpuState(), level)`, the execution core's
interrupt-pin setter: the pin now carries `level`, and the write is recorded. -/
def m68k_set_irq (s : Mc68k G S Q) (level : Nat) : Mc68k G S Q :=
  { s with m_cpuState :=
      { int_level := level, irqWrites := s.m_cpuState.irqWrites ++ [level] } }

/-- The state right after `Mc68k::Mc68k()` (mc68k.cpp:56-72): the eight queues are
default-constructed (empty), `m_cycles = 0`, the CPU state buffer is zero-filled and
`m68k_set_irq` has not been called. -/
def Mc68k.init (g : G) (sm : S) (q : Q) : Mc68k G S Q :=
  { m_cpuState := { int_level := 0, irqWrites := [] }
    m_gpt := g
    m_sim := sm
    m_qsm := q
    m_pendingInterrupts := fun _ => []
    m_cycles := 0 }

/-- The `for` loop of `Mc68k::raiseIPL` (mc68k.cpp:192-200), entered with loop variable `i`:
while `i > 0`, a non-empty `m_pendingInterrupts[i]` asserts `i`, sets `raised` and breaks,
otherwise `i` is decremented.  Returns the state and the flag `raised`. -/
def raiseIPL_loop (s : Mc68k G S Q) : (i : Nat) → i < 8 → Mc68k G S Q × Bool
  | 0, _ => (s, false)
  | k + 1, h =>
    if !(s.m_pendingInterrupts ⟨k + 1, h⟩).isEmpty then
      (m68k_set_irq s (k + 1), true)
    else
      raiseIPL_loop s k (Nat.lt_of_succ_lt h)

/-- `Mc68k::raiseIPL` (mc68k.cpp:189-203): the loop starts at `size() - 1 = 7`; when nothing
was raised the pin is set to 0. -/
def raiseIPL (s : Mc68k G S Q) : Mc68k G S Q :=
  let r := raiseIPL_loop s 7 (by decide)
  if !r.2 then m68k_set_irq r.1 0 else r.1

/-- `Mc68k::injectInterrupt` (mc68k.cpp:91-95): `push_back` on the level's deque, then
`raiseIPL`.  A level outside the array is undefined behaviour (`none`). -/
def injectInterrupt (s : Mc68k G S Q) (_vector _level : Nat) : Option (Mc68k G S Q) :=
  if h : _level < 8 then
    let s1 := { s with m_pendingInterrupts :=
                  Function.update s.m_pendingInterrupts ⟨_level, h⟩ (s.m_pendingInterrupts ⟨_level, h⟩ ++ [_vector]) }
    some (raiseIPL s1)
  else none

/-- The range-`for` of `Mc68k::hasPendingInterrupt` (mc68k.cpp:100-105) over the deque's
elements, front to back, returning `true` at the first element equal to `_vector`. -/
def hasPendingInterrupt_loop (_vector : Nat) : List Nat → Bool
  | [] => false
  | i :: rest => if i = _vector then true else hasPendingInterrupt_loop _vector rest

/-- `Mc68k::hasPendingInterrupt` (mc68k.cpp:97-106), a `const` member function: it yields a
boolean and no new state. -/
def hasPendingInterrupt (s : Mc68k G S Q) (_vector _level : Nat) : Option Bool :=
  if h : _level < 8 then
    some (hasPendingInterrupt_loop _vector (s.m_pendingInterrupts ⟨_level, h⟩))
  else none

/-- `Mc68k::readIrqUserVector` (mc68k.cpp:114-128): an empty deque returns the autovector
sentinel at once; otherwise the front is popped, the pin is cleared with `m68k_set_irq(0)`,
`raiseIPL` runs and the popped vector is returned. -/
def readIrqUserVector (s : Mc68k G S Q) (_level : Nat) : Option (Nat × Mc68k G S Q) :=
  if h : _level < 8 then
    match s.m_pendingInterrupts ⟨_level, h⟩ with
    | [] => some (M68K_INT_ACK_AUTOVECTOR, s)
    | vec :: rest =>
      let s1 := { s with m_pendingInterrupts :=
                    Function.update s.m_pendingInterrupts ⟨_level, h⟩ rest }
      let s2 := m68k_set_irq s1 0
      some (vec, raiseIPL s2)
  else none

/-- `Mc68k::getCycles` (mc68k.h:83). -/
def getCycles (s : Mc68k G S Q) : Nat := s.m_cycles

/-! ## Call sequences on the interrupt controller -/

/-- One call of the public interrupt interface of `Mc68k`. -/
inductive Call where
  | injectInterrupt (_vector _level : Nat)
  | hasPendingInterrupt (_vector _level : Nat)
  | readIrqUserVector (_level : Nat)

/-- The level argument of a call. -/
def Call.level : Call → Nat
  | .injectInterrupt _ l => l
  | .hasPendingInterrupt _ l => l
  | .readIrqUserVector l => l

/-- What a call hands back to its caller. -/
inductive Ret where
  | void
  | bool (b : Bool)
  | uint32 (n : Nat)
  deriving DecidableEq

/-- Performs one call: the value returned and the state afterwards.  `hasPendingInterrupt` is
`const`, the state after it is the state before it. -/
def runCall (s : Mc68k G S Q) : Call → Option (Ret × Mc68k G S Q)
  | .injectInterrupt v l => (injectInterrupt s v l).map fun s1 => (Ret.void, s1)
  | .hasPendingInterrupt v l => (hasPendingInterrupt s v l).map fun b => (Ret.bool b, s)
  | .readIrqUserVector l => (readIrqUserVector s l).map fun r => (Ret.uint32 r.1, r.2)

/-- Performs the calls of a list one after the other, collecting the returned values. -/
def runCalls (s : Mc68k G S Q) : List Call → Option (List Ret × Mc68k G S Q)
  | [] => some ([], s)
  | c :: cs =>
    match runCall s c with
    | none => none
    | some (r, s1) =>
      match runCalls s1 cs with
      | none => none
      | some (rs, s2) => some (r :: rs, s2)

/-- The calls `injectInterrupt(v1, l); ...; injectInterrupt(vn, l)`. -/
def injectAll (s : Mc68k G S Q) (l : Nat) : List Nat → Option (Mc68k G S Q)
  | [] => some s
  | v :: vs =>
    match injectInterrupt s v l with
    | none => none
    | some s1 => injectAll s1 l vs

/-- The next `n` calls `readIrqUserVector(l)`: the values returned, in call order, and the
state afterwards. -/
def readMany (s : Mc68k G S Q) (l : Nat) : Nat → Option (List Nat × Mc68k G S Q)
  | 0 => some ([], s)
  | n + 1 =>
    match readIrqUserVector s l with
    | none => none
    | some (v, s1) =>
      match readMany s1 l n with
      | none => none
      | some (vs, s2) => some (v :: vs, s2)

/-- The spec's wording of the asserted level: "the highest `l` in 1..7 with a non-empty queue,
else 0", as the maximum over the qualifying levels. -/
def highestPendingLevel (q : Fin 8 → List Nat) : Nat :=
  ((List.finRange 8).filter fun l => decide (1 ≤ l.val) && decide (q l ≠ [])).foldr
    (fun l m => max l.val m) 0

/-- The spec's wording of the asserted level as a property of a number `p`: no level in 1..7
with a non-empty queue lies above `p`, and `p` is either 0 or itself such a level. -/
def IsHighestPending (q : Fin 8 → List Nat) (p : Nat) : Prop :=
  (∀ l : Fin 8, 1 ≤ l.val → q l ≠ [] → l.val ≤ p) ∧
  (p = 0 ∨ ∃ l : Fin 8, l.val = p ∧ 1 ≤ l.val ∧ q l ≠ [])

/-- The first level from `i` downwards, above 0, whose queue is non-empty; 0 when there is
none.  This is the level the loop of `raiseIPL` stops at. -/
def topLevel (q : Fin 8 → List Nat) : (i : Nat) → i < 8 → Nat
  | 0, _ => 0
  | k + 1, h => if q ⟨k + 1, h⟩ = [] then topLevel q k (Nat.lt_of_succ_lt h) else k + 1

/-! ## Peripheral bus router -/

/-- The interface of a peripheral block as the router uses it (mc68k.h:35-37, 46-48, 57-59,
66-68) and as `exec` uses it (mc68k.cpp:84-86).  The classes `Gpt`, `Sim` and `Qsm` are not
under `src/`, so their member functions are parameters.  A block holds a reference to the
controller, hence its operations act on the whole controller state `M`; `isInRange` only
inspects it.  `PeriphAddress` values are natural numbers. -/
structure PeripheralBlock (M : Type) where
  isInRange : M → Nat → Bool
  read8 : M → Nat → Nat × M
  read16 : M → Nat → Nat × M
  write8 : M → Nat → Nat → M
  write16 : M → Nat → Nat → M
  exec : M → Nat → M

/-- The three blocks `m_gpt`, `m_sim`, `m_qsm` and the constant `g_peripheralMask`, which is
declared outside `src/`. -/
structure Peripherals (M : Type) where
  g_peripheralMask : Nat
  gpt : PeripheralBlock M
  sim : PeripheralBlock M
  qsm : PeripheralBlock M

/-- Names of the three blocks: Timer (`m_gpt`), SystemIntegration (`m_sim`), SerialQueue
(`m_qsm`). -/
inductive Block where
  | gpt
  | sim
  | qsm
  deriving DecidableEq

/-- The four bus access kinds. -/
inductive Access where
  | read8
  | read16
  | write8 (_val : Nat)
  | write16 (_val : Nat)
  deriving DecidableEq

/-- A read or write member function of a block being invoked with an address. -/
structure Delivery where
  block : Block
  access : Access
  addr : Nat
  deriving DecidableEq

/-- The block behind a name. -/
def Peripherals.block {M : Type} (P : Peripherals M) : Block → PeripheralBlock M
  | .gpt => P.gpt
  | .sim => P.sim
  | .qsm => P.qsm

/-- Outcome of a bus read: the value returned, the state afterwards and the block member
functions that were invoked, in order. -/
structure ReadResult (M : Type) where
  value : Nat
  state : M
  delivered : List Delivery

/-- Outcome of a bus write: the state afterwards and the block member functions that were
invoked, in order. -/
structure WriteResult (M : Type) where
  state : M
  delivered : List Delivery

/-- `Mc68k::read8` (mc68k.h:31-40). -/
def read8 (P : Peripherals (Mc68k G S Q)) (s : Mc68k G S Q) (_addr : Nat) :
    ReadResult (Mc68k G S Q) :=
  let addr := _addr &&& P.g_peripheralMask
  if P.gpt.isInRange s addr then
    ⟨(P.gpt.read8 s addr).1, (P.gpt.read8 s addr).2, [⟨.gpt, .read8, addr⟩]⟩
  else if P.sim.isInRange s addr then
    ⟨(P.sim.read8 s addr).1, (P.sim.read8 s addr).2, [⟨.sim, .read8, addr⟩]⟩
  else if P.qsm.isInRange s addr then
    ⟨(P.qsm.read8 s addr).1, (P.qsm.read8 s addr).2, [⟨.qsm, .read8, addr⟩]⟩
  else
    ⟨0, s, []⟩

/-- `Mc68k::read16` (mc68k.h:42-51). -/
def read16 (P : Peripherals (Mc68k G S Q)) (s : Mc68k G S Q) (_addr : Nat) :
    ReadResult (Mc68k G S Q) :=
  let addr := _addr &&& P.g_peripheralMask
  if P.gpt.isInRange s addr then
    ⟨(P.gpt.read16 s addr).1, (P.gpt.read16 s addr).2, [⟨.gpt, .read16, addr⟩]⟩
  else if P.sim.isInRange s addr then
    ⟨(P.sim.read16 s addr).1, (P.sim.read16 s addr).2, [⟨.sim, .read16, addr⟩]⟩
  else if P.qsm.isInRange s addr then
    ⟨(P.qsm.read16 s addr).1, (P.qsm.read16 s addr).2, [⟨.qsm, .read16, addr⟩]⟩
  else
    ⟨0, s, []⟩

/-- `Mc68k::write8` (mc68k.h:53-60). -/
def write8 (P : Peripherals (Mc68k G S Q)) (s : Mc68k G S Q) (_addr _val : Nat) :
    WriteResult (Mc68k G S Q) :=
  let addr := _addr &&& P.g_peripheralMask
  if P.gpt.isInRange s addr then
    ⟨P.gpt.write8 s addr _val, [⟨.gpt, .write8 _val, addr⟩]⟩
  else if P.sim.isInRange s addr then
    ⟨P.sim.write8 s addr _val, [⟨.sim, .write8 _val, addr⟩]⟩
  else if P.qsm.isInRange s addr then
    ⟨P.qsm.write8 s addr _val, [⟨.qsm, .write8 _val, addr⟩]⟩
  else
    ⟨s, []⟩

/-- `Mc68k::write16` (mc68k.h:62-69). -/
def write16 (P : Peripherals (Mc68k G S Q)) (s : Mc68k G S Q) (_addr _val : Nat) :
    WriteResult (Mc68k G S Q) :=
  let addr := _addr &&& P.g_peripheralMask
  if P.gpt.isInRange s addr then
    ⟨P.gpt.write16 s addr _val, [⟨.gpt, .write16 _val, addr⟩]⟩
  else if P.sim.isInRange s addr then
    ⟨P.sim.write16 s addr _val, [⟨.sim, .write16 _val, addr⟩]⟩
  else if P.qsm.isInRange s addr then
    ⟨P.qsm.write16 s addr _val, [⟨.qsm, .write16 _val, addr⟩]⟩
  else
    ⟨s, []⟩

/-- The spec's wording of the dispatch: "Timer, then SystemIntegration, then SerialQueue;
first range match wins". -/
def firstAccepting (P : Peripherals (Mc68k G S Q)) (s : Mc68k G S Q) (addr : Nat) :
    Option Block :=
  [Block.gpt, Block.sim, Block.qsm].find? fun b => (P.block b).isInRange s addr

/-- Position of a block in the dispatch order. -/
def Block.order : Block → Nat
  | .gpt => 0
  | .sim => 1
  | .qsm => 2

/-- The same blocks with other range predicates. -/
def Peripherals.withRanges {M : Type} (P : Peripherals M) (r : Block → M → Nat → Bool) :
    Peripherals M :=
  { g_peripheralMask := P.g_peripheralMask
    gpt := { P.gpt with isInRange := r .gpt }
    sim := { P.sim with isInRange := r .sim }
    qsm := { P.qsm with isInRange := r .qsm } }

/-! ## Concrete instances used to evaluate the definitions -/

/-- A controller without block state. -/
abbrev Bare := Mc68k Unit Unit Unit

/-- A freshly constructed controller without block state. -/
def fresh : Bare := Mc68k.init () () ()

/-- A controller in mid-run: 0x19 pending at level 5, 0x1A, 0x1B and again 0x1A at level 3,
0x07 at the unused level 0; the pin carries 5 and 1000 cycles have elapsed. -/
def busy : Bare :=
  { m_cpuState := { int_level := 5, irqWrites := [3, 3, 5, 5, 5] }
    m_gpt := ()
    m_sim := ()
    m_qsm := ()
    m_pendingInterrupts := fun l =>
      if l.val = 5 then [0x19] else if l.val = 3 then [0x1A, 0x1B, 0x1A]
      else if l.val = 0 then [0x07] else []
    m_cycles := 1000 }

/-- A block owning the addresses `lo ≤ addr < hi`; reads return `tag`, writes add the written
value to the cycle counter so that a delivered write is visible in the state. -/
def tagBlock (lo hi tag : Nat) : PeripheralBlock Bare where
  isInRange := fun _ a => decide (lo ≤ a) && decide (a < hi)
  read8 := fun s _ => (tag, s)
  read16 := fun s _ => (tag, s)
  write8 := fun s _ v => { s with m_cycles := s.m_cycles + v }
  write16 := fun s _ v => { s with m_cycles := s.m_cycles + v }
  exec := fun s _ => s

/-- Three blocks with overlapping ranges under the mask `0xfffff`. -/
def overlapping : Peripherals Bare where
  g_peripheralMask := 0xfffff
  gpt := tagBlock 0x900 0x940 1
  sim := tagBlock 0x920 0xa80 2
  qsm := tagBlock 0x900 0xe00 3

/-! ## Step driver and the remaining public operations -/

/-- Modelled from the spec: one call `m68k_execute(getCpuState(), 1)` of the execution core
(`execute(state) -> cyclesConsumed`), which is not under `src/`: the cycle count it reports, a
C `int`, and what the call does to the controller through its callbacks (bus accesses,
interrupt acknowledge, reset and illegal-instruction hooks). -/
structure CoreRun (M : Type) where
  deltaCycles : Int
  effect : M → M

/-- A call that `Mc68k::exec` makes: `m68k_execute` with its `num_cycles` argument, or the
`exec` member function of a block with its argument. -/
inductive ExecEvent where
  | m68k_execute (num_cycles : Nat)
  | blockExec (block : Block) (_deltaCycles : Nat)
  deriving DecidableEq

/-- Outcome of `Mc68k::exec`: the `uint32_t` returned, the state afterwards and the calls made,
in order. -/
structure ExecResult (M : Type) where
  ret : Nat
  state : M
  calls : List ExecEvent

/-- `Mc68k::exec` (mc68k.cpp:79-89).  `m_cycles += deltaCycles` adds the `int` to the
`uint64_t` counter modulo 2^64; the caller receives `deltaCycles` converted to `uint32_t`, the
return type, and so do the blocks, whose `exec` (declared outside `src/`) takes a
`uint32_t`. -/
def exec (P : Peripherals (Mc68k G S Q)) (core : CoreRun (Mc68k G S Q)) (s : Mc68k G S Q) :
    ExecResult (Mc68k G S Q) :=
  let s0 := core.effect s
  let deltaCycles : Int := core.deltaCycles
  let s1 := { s0 with m_cycles := (((s0.m_cycles : Int) + deltaCycles) % 2 ^ 64).toNat }
  let d32 : Nat := (deltaCycles % 2 ^ 32).toNat
  let s2 := P.gpt.exec s1 d32
  let s3 := P.sim.exec s2 d32
  let s4 := P.qsm.exec s3 d32
  { ret := d32
    state := s4
    calls := [ExecEvent.m68k_execute 1, ExecEvent.blockExec Block.gpt d32,
      ExecEvent.blockExec Block.sim d32, ExecEvent.blockExec Block.qsm d32] }

/-- Successive `exec()` calls, one per run of the core: the values returned, in call order,
and the state afterwards. -/
def execMany (P : Peripherals (Mc68k G S Q)) :
    List (CoreRun (Mc68k G S Q)) → Mc68k G S Q → List Nat × Mc68k G S Q
  | [], s => ([], s)
  | c :: cs, s =>
    ((exec P c s).ret :: (execMany P cs (exec P c s).state).1,
      (execMany P cs (exec P c s).state).2)

/-- Modelled from the spec: the execution core's `pulseReset()` and register set, the functions
`m68k_pulse_reset` and `m68k_set_reg(.., M68K_REG_PC, ..)`, which are not under `src/`, as
what they do to the controller. -/
structure ExecutionCore (M : Type) where
  m68k_pulse_reset : M → M
  m68k_set_reg_PC : M → Nat → M

/-- `Mc68k::reset` (mc68k.cpp:130-133). -/
def reset (core : ExecutionCore (Mc68k G S Q)) (s : Mc68k G S Q) : Mc68k G S Q :=
  core.m68k_pulse_reset s

/-- `Mc68k::setPC` (mc68k.cpp:135-138). -/
def setPC (core : ExecutionCore (Mc68k G S Q)) (s : Mc68k G S Q) (_pc : Nat) : Mc68k G S Q :=
  core.m68k_set_reg_PC s _pc

/-- A function of the execution core or of a block that does not write `m_cycles`, a protected
member that only `Mc68k::exec` assigns. -/
def KeepsCycles (f : Mc68k G S Q → Mc68k G S Q) : Prop :=
  ∀ s, (f s).m_cycles = s.m_cycles

/-- No member function of the block writes `m_cycles`. -/
def blockKeepsCycles (B : PeripheralBlock (Mc68k G S Q)) : Prop :=
  (∀ a, KeepsCycles fun s => (B.read8 s a).2) ∧
  (∀ a, KeepsCycles fun s => (B.read16 s a).2) ∧
  (∀ a x, KeepsCycles fun s => B.write8 s a x) ∧
  (∀ a x, KeepsCycles fun s => B.write16 s a x) ∧
  (∀ d, KeepsCycles fun s => B.exec s d)

/-- No member function of any of the three blocks writes `m_cycles`. -/
def peripheralsKeepCycles (P : Peripherals (Mc68k G S Q)) : Prop :=
  blockKeepsCycles P.gpt ∧ blockKeepsCycles P.sim ∧ blockKeepsCycles P.qsm

/-- Neither function of the execution core writes `m_cycles`. -/
def coreKeepsCycles (core : ExecutionCore (Mc68k G S Q)) : Prop :=
  KeepsCycles core.m68k_pulse_reset ∧ ∀ pc, KeepsCycles fun s => core.m68k_set_reg_PC s pc

/-- One call of a public operation of `Mc68k`. -/
inductive PublicOp (M : Type) where
  | exec (core : CoreRun M)
  | injectInterrupt (_vector _level : Nat)
  | hasPendingInterrupt (_vector _level : Nat)
  | readIrqUserVector (_level : Nat)
  | reset
  | setPC (_pc : Nat)
  | read8 (_addr : Nat)
  | read16 (_addr : Nat)
  | write8 (_addr _val : Nat)
  | write16 (_addr _val : Nat)

/-- Whether the call is `exec()`. -/
def PublicOp.isExec {M : Type} : PublicOp M → Bool
  | .exec _ => true
  | _ => false

/-- Whether the level argument of the call, if it has one, indexes one of the eight queues. -/
def PublicOp.levelInRange {M : Type} : PublicOp M → Bool
  | .injectInterrupt _ l => decide (l < 8)
  | .hasPendingInterrupt _ l => decide (l < 8)
  | .readIrqUserVector l => decide (l < 8)
  | _ => true

/-- The state after one public operation (`none` where the source indexes outside the
array). -/
def runPublicOp (P : Peripherals (Mc68k G S Q)) (core : ExecutionCore (Mc68k G S Q))
    (s : Mc68k G S Q) : PublicOp (Mc68k G S Q) → Option (Mc68k G S Q)
  | .exec c => some (exec P c s).state
  | .injectInterrupt v l => injectInterrupt s v l
  | .hasPendingInterrupt v l => (hasPendingInterrupt s v l).map fun _ => s
  | .readIrqUserVector l => (readIrqUserVector s l).map fun r => r.2
  | .reset => some (reset core s)
  | .setPC pc => some (setPC core s pc)
  | .read8 a => some (read8 P s a).state
  | .read16 a => some (read16 P s a).state
  | .write8 a x => some (write8 P s a x).state
  | .write16 a x => some (write16 P s a x).state

/-- The state after a sequence of public operations. -/
def runPublicOps (P : Peripherals (Mc68k G S Q)) (core : ExecutionCore (Mc68k G S Q)) :
    Mc68k G S Q → List (PublicOp (Mc68k G S Q)) → Option (Mc68k G S Q)
  | s, [] => some s
  | s, op :: ops =>
    match runPublicOp P core s op with
    | none => none
    | some s1 => runPublicOps P core s1 ops

/-- A block owning the addresses `lo ≤ addr < hi` that keeps no state of its own: reads return
`tag`, writes and `exec` leave the controller as it is. -/
def plainBlock (lo hi tag : Nat) : PeripheralBlock Bare where
  isInRange := fun _ a => decide (lo ≤ a) && decide (a < hi)
  read8 := fun s _ => (tag, s)
  read16 := fun s _ => (tag, s)
  write8 := fun s _ _ => s
  write16 := fun s _ _ => s
  exec := fun s _ => s

/-- Three plain blocks with disjoint ranges under the mask `0xfffff`. -/
def plain : Peripherals Bare where
  g_peripheralMask := 0xfffff
  gpt := plainBlock 0x900 0x940 1
  sim := plainBlock 0xa00 0xa80 2
  qsm := plainBlock 0xc00 0xe00 3

/-- An execution core whose reset and register set leave the controller as it is. -/
def idleCore : ExecutionCore Bare where
  m68k_pulse_reset := fun s => s
  m68k_set_reg_PC := fun s _ => s

/-- A run of the core that reports `d` cycles and makes no callback. -/
def coreRun (d : Int) : CoreRun Bare where
  deltaCycles := d
  effect := fun s => s

/-- A controller whose three blocks each keep a log of numbers. -/
abbrev Probe := Mc68k (List Nat) (List Nat) (List Nat)

/-- Blocks whose `exec` appends to the block's own log the cycle counter it sees, the delta it
is given, and the lengths of the three logs at that moment. -/
def probes : Peripherals Probe where
  g_peripheralMask := 0xfffff
  gpt :=
    { isInRange := fun _ _ => false
      read8 := fun s _ => (0, s)
      read16 := fun s _ => (0, s)
      write8 := fun s _ _ => s
      write16 := fun s _ _ => s
      exec := fun s d =>
        { s with m_gpt := s.m_gpt ++
            [s.m_cycles, d, s.m_gpt.length, s.m_sim.length, s.m_qsm.length] } }
  sim :=
    { isInRange := fun _ _ => false
      read8 := fun s _ => (0, s)
      read16 := fun s _ => (0, s)
      write8 := fun s _ _ => s
      write16 := fun s _ _ => s
      exec := fun s d =>
        { s with m_sim := s.m_sim ++
            [s.m_cycles, d, s.m_gpt.length, s.m_sim.length, s.m_qsm.length] } }
  qsm :=
    { isInRange := fun _ _ => false
      read8 := fun s _ => (0, s)
      read16 := fun s _ => (0, s)
      write8 := fun s _ _ => s
      write16 := fun s _ _ => s
      exec := fun s d =>
        { s with m_qsm := s.m_qsm ++
            [s.m_cycles, d, s.m_gpt.length, s.m_sim.length, s.m_qsm.length] } }

/-- 12884901891 calls of `exec()`, each reporting 1431655765 cycles; the counts add up to
2^64 - 1. -/
def wrapRun : List (PublicOp Bare) :=
  List.replicate 12884901891 (PublicOp.exec (coreRun 1431655765))

/-! ## Illegal-instruction hook, acknowledge callback and the process-wide slot -/

/-- Modelled from the spec: the `assert` of `<cassert>`, which is not under `src/`.  When the
translation unit is compiled with `NDEBUG` defined the macro expands to nothing; otherwise a
false condition aborts the program with the message. -/
def cassert (NDEBUG : Bool) (condition : Bool) (message : String) : Except String Unit :=
  if NDEBUG then Except.ok ()
  else if condition then Except.ok () else Except.error message

/-- `Mc68k::onIllegalInstruction` (mc68k.cpp:108-112): `assert(false && "...")`, then
`return 0`.  The string literal is a non-null pointer, hence true.  `Except.error` is the
aborted run. -/
def onIllegalInstruction (NDEBUG : Bool) (_opcode : Nat) : Except String Nat :=
  match cassert NDEBUG (false && true) "MC68331 illegal instruction" with
  | Except.error e => Except.error e
  | Except.ok () => Except.ok 0

/-- `m68k_illegal_cbk` (mc68k.cpp:28-31): the value of the hook, converted to `int`, goes back
to the execution core. -/
def m68k_illegal_cbk (NDEBUG : Bool) (opcode : Nat) : Except String Int :=
  match onIllegalInstruction NDEBUG opcode with
  | Except.error e => Except.error e
  | Except.ok r => Except.ok (if r < 2 ^ 31 then (r : Int) else (r : Int) - 2 ^ 32)

/-- `m68k_int_ack` (mc68k.cpp:24-27): the level is converted to `uint8_t`, the `uint32_t`
result of `readIrqUserVector` to `int`. -/
def m68k_int_ack (s : Mc68k G S Q) (int_level : Int) : Option (Int × Mc68k G S Q) :=
  (readIrqUserVector s (int_level % 256).toNat).map fun r =>
    (if r.1 < 2 ^ 31 then (r.1 : Int) else (r.1 : Int) - 2 ^ 32, r.2)

/-- `std::atomic<T>::compare_exchange_strong(expected, desired)` on a single thread, as the new
value of the atomic object: `desired` when the object holds `expected`, otherwise what it
held. -/
def compare_exchange_strong (obj expected desired : Option Nat) : Option Nat :=
  if obj = expected then desired else obj

/-- The effect of the constructor `Mc68k::Mc68k()` (mc68k.cpp:63) on `g_instance`
(mc68k.cpp:14): `g_instance = this`.  Controllers are identified by their address, `nullptr`
is `none`. -/
def Mc68k_ctor (this : Nat) (_g_instance : Option Nat) : Option Nat :=
  some this

/-- The effect of the destructor `Mc68k::~Mc68k()` (mc68k.cpp:73-77) on `g_instance`:
`g_instance.compare_exchange_strong(inst, nullptr)` with `inst = this`. -/
def Mc68k_dtor (this : Nat) (g_instance : Option Nat) : Option Nat :=
  compare_exchange_strong g_instance (some this) none

/-- Construction or destruction of the controller at an address. -/
inductive Lifetime where
  | construct (this : Nat)
  | destroy (this : Nat)

/-- The slot `g_instance` after a sequence of constructions and destructions. -/
def runLifetimes : Option Nat → List Lifetime → Option Nat
  | slot, [] => slot
  | slot, Lifetime.construct this :: rest => runLifetimes (Mc68k_ctor this slot) rest
  | slot, Lifetime.destroy this :: rest => runLifetimes (Mc68k_dtor this slot) rest

/-- The elements of every queue are `uint8_t` values. -/
def QueuesHoldBytes (q : Fin 8 → List Nat) : Prop :=
  ∀ l : Fin 8, ∀ v ∈ q l, v < 256

/-- The caller protocol of an interrupt-driven core: while the asserted level is not 0,
acknowledge the asserted level with `readIrqUserVector`.  Returns the vectors in the order
they were returned and the state afterwards; `none` when `fuel` calls did not suffice. -/
def drain : Nat → Mc68k G S Q → Option (List Nat × Mc68k G S Q)
  | fuel, s =>
    if s.m_cpuState.int_level = 0 then some ([], s)
    else
      match fuel with
      | 0 => none
      | fuel + 1 =>
        match readIrqUserVector s s.m_cpuState.int_level with
        | none => none
        | some (v, s1) =>
          match drain fuel s1 with
          | none => none
          | some (vs, s2) => some (v :: vs, s2)

/-- The pending vectors of levels 7 down to 1, each level in queue order. -/
def pendingInOrder (q : Fin 8 → List Nat) : List Nat :=
  q 7 ++ q 6 ++ q 5 ++ q 4 ++ q 3 ++ q 2 ++ q 1

/-! ## Disassembly dump -/

/-- `strstr(haystack, needle)` of `<cstring>` on C strings without their terminator: the
offset of the first occurrence of `needle` in `haystack`, `none` for the null pointer. -/
def strstr : List Char → List Char → Option Nat
  | [], needle => if needle.isPrefixOf [] then some 0 else none
  | c :: rest, needle =>
    if needle.isPrefixOf (c :: rest) then some 0
    else (strstr rest needle).map (· + 1)

/-- The lambda `startsWith` of `Mc68k::dumpAssembly` (mc68k.cpp:177-180):
`strstr(disasm, _search) == disasm`, the occurrence found is at offset 0. -/
def startsWith (disasm _search : List Char) : Bool :=
  strstr disasm _search == some 0

/-- The loop state of `Mc68k::dumpAssembly`: the characters written to the stream `f` so far
and, for reference, the address and the returned size of every `disassemble` call made so far,
in call order. -/
structure DumpState where
  f : List Char
  decoded : List (Nat × Nat)

/-- The `for` loop of `Mc68k::dumpAssembly` (mc68k.cpp:167-184) with loop variable `i` and loop
bound `last`, the `uint32_t` value of `_first + _count`.  `MCHEXN6` is the macro call
`MCHEXN(i,6)` and `disassemble` is `Mc68k::disassemble` (text written to the buffer, size
returned); both are declared outside `src/` or forward to the execution core, so they are
parameters.  `i` is a `uint32_t`, its increments are modulo 2^32.  `fuel` bounds the number of
iterations; `none` means the loop has not finished within `fuel` iterations. -/
def dumpAssembly_loop (MCHEXN6 : Nat → List Char) (disassemble : Nat → List Char × Nat)
    (last : Nat) : Nat → Nat → DumpState → Option DumpState
  | 0, i, st => if i < last then none else some st
  | fuel + 1, i, st =>
    if i < last then
      let disasm := (disassemble i).1
      let opSize := (disassemble i).2
      let f1 := st.f ++ MCHEXN6 i ++ [':', ' '] ++ disasm ++ [Char.ofNat 10]
      let i1 := if opSize = 0 then (i + 1) % 2 ^ 32 else (i + opSize) % 2 ^ 32
      let f2 :=
        if startsWith disasm "rts".toList || startsWith disasm "bra ".toList
            || startsWith disasm "jmp ".toList then
          f1 ++ [Char.ofNat 10]
        else f1
      dumpAssembly_loop MCHEXN6 disassemble last fuel i1
        { f := f2, decoded := st.decoded ++ [(i, opSize)] }
    else some st

/-- Outcome of `Mc68k::dumpAssembly`: the boolean returned, the characters written to the
file, and the address and size of every decoded instruction. -/
structure DumpResult where
  ret : Bool
  f : List Char
  decoded : List (Nat × Nat)

/-- `Mc68k::dumpAssembly` (mc68k.cpp:160-187).  `is_open` is whether the `std::ofstream`
opened `_filename`; `_splitFunctions` is the fourth parameter, which the body never reads.
`none` means the loop has not finished within `fuel` iterations. -/
def dumpAssembly (MCHEXN6 : Nat → List Char) (disassemble : Nat → List Char × Nat)
    (fuel : Nat) (is_open : Bool) (_first _count : Nat) (_splitFunctions : Bool) :
    Option DumpResult :=
  if !is_open then some { ret := false, f := [], decoded := [] }
  else
    match dumpAssembly_loop MCHEXN6 disassemble ((_first + _count) % 2 ^ 32) fuel _first
        { f := [], decoded := [] } with
    | none => none
    | some st => some { ret := true, f := st.f, decoded := st.decoded }

/-- The spec's wording of the separator rule, on the disassembly text: the text begins with
`rts`, with `bra ` or with `jmp `. -/
def endsBlock (text : List Char) : Bool :=
  "rts".toList.isPrefixOf text || "bra ".toList.isPrefixOf text
    || "jmp ".toList.isPrefixOf text

/-- The spec's wording of an instruction line: `<hex-address>: <text>` and a newline. -/
def instructionLine (MCHEXN6 : Nat → List Char) (disassemble : Nat → List Char × Nat)
    (addr : Nat) : List Char :=
  MCHEXN6 addr ++ [':', ' '] ++ (disassemble addr).1 ++ [Char.ofNat 10]

/-- What the dump holds for one decoded instruction: its line, followed by a blank line when
the text ends a block. -/
def dumpEntry (MCHEXN6 : Nat → List Char) (disassemble : Nat → List Char × Nat)
    (addr : Nat) : List Char :=
  instructionLine MCHEXN6 disassemble addr ++
    (if endsBlock (disassemble addr).1 then [Char.ofNat 10] else [])

/-- How far the loop moves on after an instruction of the reported size: the size, or 1 when
the size is 0. -/
def advance (opSize : Nat) : Nat :=
  if opSize = 0 then 1 else opSize

/-- The spec's wording of the decoding order from address `i` up to the bound `last`, without
machine arithmetic: nothing is decoded at or past the bound; below it the instruction at `i`
is decoded and decoding goes on at `i` plus its advance. -/
inductive DecodedFrom (disassemble : Nat → List Char × Nat) (last : Nat) :
    Nat → List (Nat × Nat) → Prop where
  | done (i : Nat) (h : last ≤ i) : DecodedFrom disassemble last i []
  | step (i : Nat) (h : i < last) (rest : List (Nat × Nat))
      (hrest : DecodedFrom disassemble last (i + advance (disassemble i).2) rest) :
      DecodedFrom disassemble last i ((i, (disassemble i).2) :: rest)

/-- A rendering of `MCHEXN(i,6)`: lower-case hexadecimal digits, padded with zeros to six
characters. -/
def hex6 (n : Nat) : List Char :=
  List.replicate (6 - (Nat.toDigits 16 n).length) '0' ++ Nat.toDigits 16 n

/-- A disassembler for a four-instruction routine at 0x100; everywhere else it reports a
four-byte instruction. -/
def sampleDisassembler (pc : Nat) : List Char × Nat :=
  if pc = 0x100 then ("moveq   #$0, D0".toList, 2)
  else if pc = 0x102 then ("rts".toList, 2)
  else if pc = 0x104 then ("jmp     $1234.w".toList, 4)
  else ("ori.b   #$0, D0".toList, 4)

/-- A disassembler that reports size 0 for every address. -/
def zeroSizeDisassembler (_pc : Nat) : List Char × Nat :=
  ("dc.w".toList, 0)

/-- The supported regime of the spec (section 5): at most one controller is alive at a time.
`alive` is the controller alive before the sequence, if any; a construction requires that no
controller is alive, a destruction destroys the controller that is alive. -/
def oneAtATime : Option Nat → List Lifetime → Bool
  | _, [] => true
  | none, Lifetime.construct this :: rest => oneAtATime (some this) rest
  | some _, Lifetime.construct _ :: _ => false
  | none, Lifetime.destroy _ :: _ => false
  | some a, Lifetime.destroy this :: rest => decide (a = this) && oneAtATime none rest

/-- The value of `g_instance` after each construction and destruction of a sequence, in
order. -/
def slotHistory : Option Nat → List Lifetime → List (Option Nat)
  | _, [] => []
  | slot, Lifetime.construct this :: rest =>
    Mc68k_ctor this slot :: slotHistory (Mc68k_ctor this slot) rest
  | slot, Lifetime.destroy this :: rest =>
    Mc68k_dtor this slot :: slotHistory (Mc68k_dtor this slot) rest

/-- The spec's wording of the slot after an event: "set on construction and cleared on
destruction". -/
def slotPerSpec : Lifetime → Option Nat
  | Lifetime.construct this => some this
  | Lifetime.destroy _ => none

end mc68k

/-! ## The level asserted by `raiseIPL` -/

namespace mc68k

variable {G S Q : Type}

/-- Result of the scan that `raiseIPL_loop` performs from level `i` downwards. -/
theorem raiseIPL_loop_eq (s : Mc68k G S Q) (i : Nat) (h : i < 8) :
    raiseIPL_loop s i h =
      if topLevel s.m_pendingInterrupts i h = 0 then (s, false)
      else (m68k_set_irq s (topLevel s.m_pendingInterrupts i h), true) := by
  induction i with
  | zero => simp [raiseIPL_loop, topLevel]
  | succ k ih =>
    by_cases hq : s.m_pendingInterrupts ⟨k + 1, h⟩ = []
    · simp [raiseIPL_loop, topLevel, hq, ih]
    · simp [raiseIPL_loop, topLevel, hq]

theorem raiseIPL_eq_topLevel (s : Mc68k G S Q) :
    raiseIPL s = m68k_set_irq s (topLevel s.m_pendingInterrupts 7 (by decide)) := by
  unfold raiseIPL
  rw [raiseIPL_loop_eq]
  by_cases h0 : topLevel s.m_pendingInterrupts 7 (by decide) = 0
  · simp [h0]
  · simp [h0]

theorem topLevel_spec (q : Fin 8 → List Nat) (i : Nat) (h : i < 8) :
    topLevel q i h ≤ i ∧
    (∀ l : Fin 8, 1 ≤ l.val → l.val ≤ i → q l ≠ [] → l.val ≤ topLevel q i h) ∧
    (topLevel q i h = 0 ∨
      ∃ l : Fin 8, l.val = topLevel q i h ∧ 1 ≤ l.val ∧ q l ≠ []) := by
  induction i with
  | zero =>
    refine ⟨by simp [topLevel], ?_, Or.inl (by simp [topLevel])⟩
    intro l h1 h2; omega
  | succ k ih =>
    obtain ⟨ih1, ih2, ih3⟩ := ih (Nat.lt_of_succ_lt h)
    by_cases hq : q ⟨k + 1, h⟩ = []
    · have e : topLevel q (k + 1) h = topLevel q k (Nat.lt_of_succ_lt h) := by
        simp [topLevel, hq]
      rw [e]
      refine ⟨by omega, ?_, ih3⟩
      intro l h1 h2 h3
      by_cases hl : l.val = k + 1
      · exfalso; apply h3
        have : l = ⟨k + 1, h⟩ := Fin.ext hl
        rw [this]; exact hq
      · exact ih2 l h1 (by omega) h3
    · have e : topLevel q (k + 1) h = k + 1 := by simp [topLevel, hq]
      rw [e]
      refine ⟨le_refl _, fun l _ h2 _ => h2, Or.inr ⟨⟨k + 1, h⟩, rfl, by simp, hq⟩⟩

theorem foldr_max_spec (L : List (Fin 8)) :
    (∀ l ∈ L, l.val ≤ L.foldr (fun l m => max l.val m) 0) ∧
    (L.foldr (fun l m => max l.val m) 0 = 0 ∨
      ∃ l ∈ L, l.val = L.foldr (fun l m => max l.val m) 0) := by
  induction L with
  | nil => simp
  | cons a L ih =>
    obtain ⟨ih1, ih2⟩ := ih
    simp only [List.foldr_cons, List.mem_cons]
    constructor
    · intro l hl
      rcases hl with rfl | hl
      · exact le_max_left _ _
      · exact le_trans (ih1 l hl) (le_max_right _ _)
    · right
      rcases le_total a.val (L.foldr (fun l m => max l.val m) 0) with hle | hle
      · rw [max_eq_right hle]
        rcases ih2 with h0 | ⟨l, hl, e⟩
        · exact ⟨a, Or.inl rfl, by omega⟩
        · exact ⟨l, Or.inr hl, e⟩
      · rw [max_eq_left hle]
        exact ⟨a, Or.inl rfl, rfl⟩

/-- The maximum-based `highestPendingLevel` is the highest level in 1..7 with a non-empty
queue, and 0 when there is none. -/
theorem highestPendingLevel_spec (q : Fin 8 → List Nat) :
    IsHighestPending q (highestPendingLevel q) := by
  obtain ⟨h1, h2⟩ := foldr_max_spec
    ((List.finRange 8).filter fun l => decide (1 ≤ l.val) && decide (q l ≠ []))
  refine ⟨?_, ?_⟩
  · intro l hl hq
    apply h1
    simp [List.mem_filter, List.mem_finRange, hl, hq]
  · rcases h2 with h0 | ⟨l, hl, e⟩
    · exact Or.inl h0
    · right
      simp only [List.mem_filter, List.mem_finRange, true_and, Bool.and_eq_true,
        decide_eq_true_eq] at hl
      exact ⟨l, e, hl.1, hl.2⟩

theorem IsHighestPending.unique {q : Fin 8 → List Nat} {p p2 : Nat}
    (h : IsHighestPending q p) (h2 : IsHighestPending q p2) : p = p2 := by
  obtain ⟨a1, a2⟩ := h
  obtain ⟨b1, b2⟩ := h2
  rcases a2 with a0 | ⟨l, el, l1, lq⟩ <;> rcases b2 with b0 | ⟨m, em, m1, mq⟩
  · omega
  · have := a1 m m1 mq; omega
  · have := b1 l l1 lq; omega
  · have := a1 m m1 mq
    have := b1 l l1 lq
    omega

theorem topLevel_eq_highest (q : Fin 8 → List Nat) :
    topLevel q 7 (by decide) = highestPendingLevel q := by
  apply IsHighestPending.unique _ (highestPendingLevel_spec q)
  obtain ⟨_, t2, t3⟩ := topLevel_spec q 7 (by decide)
  refine ⟨fun l hl hq => t2 l hl (by omega) hq, ?_⟩
  rcases t3 with h0 | ⟨l, e, l1, lq⟩
  · exact Or.inl h0
  · exact Or.inr ⟨l, e, l1, lq⟩

/-- `raiseIPL` is one write of the highest pending level to the pin. -/
theorem raiseIPL_eq (s : Mc68k G S Q) :
    raiseIPL s = m68k_set_irq s (highestPendingLevel s.m_pendingInterrupts) := by
  rw [raiseIPL_eq_topLevel, topLevel_eq_highest]

/-! ## Interrupt controller -/

theorem injectInterrupt_eq (s : Mc68k G S Q) (v l : Nat) (hl : l < 8) :
    injectInterrupt s v l =
      some (m68k_set_irq
        { s with m_pendingInterrupts :=
            Function.update s.m_pendingInterrupts ⟨l, hl⟩ (s.m_pendingInterrupts ⟨l, hl⟩ ++ [v]) }
        (highestPendingLevel
          (Function.update s.m_pendingInterrupts ⟨l, hl⟩ (s.m_pendingInterrupts ⟨l, hl⟩ ++ [v])))) := by
  simp [injectInterrupt, hl, raiseIPL_eq]

theorem readIrqUserVector_nil (s : Mc68k G S Q) (l : Nat) (hl : l < 8)
    (hq : s.m_pendingInterrupts ⟨l, hl⟩ = []) :
    readIrqUserVector s l = some (M68K_INT_ACK_AUTOVECTOR, s) := by
  simp [readIrqUserVector, hl, hq]

theorem readIrqUserVector_cons (s : Mc68k G S Q) (l : Nat) (hl : l < 8) (v : Nat)
    (rest : List Nat) (hq : s.m_pendingInterrupts ⟨l, hl⟩ = v :: rest) :
    readIrqUserVector s l =
      some (v, m68k_set_irq
        (m68k_set_irq
          { s with m_pendingInterrupts := Function.update s.m_pendingInterrupts ⟨l, hl⟩ rest } 0)
        (highestPendingLevel (Function.update s.m_pendingInterrupts ⟨l, hl⟩ rest))) := by
  simp [readIrqUserVector, hl, hq, raiseIPL_eq, m68k_set_irq]

/-- Every call with a level inside the array succeeds and re-establishes "the pin carries the
highest pending level". -/
theorem runCall_keeps_ipl (s : Mc68k G S Q) (c : Call) (hc : c.level < 8)
    (hinv : s.m_cpuState.int_level = highestPendingLevel s.m_pendingInterrupts) :
    ∃ r s1, runCall s c = some (r, s1) ∧
      s1.m_cpuState.int_level = highestPendingLevel s1.m_pendingInterrupts := by
  cases c with
  | injectInterrupt v l =>
    have hl : l < 8 := hc
    simp only [runCall, injectInterrupt_eq s v l hl, Option.map_some']
    exact ⟨_, _, rfl, rfl⟩
  | hasPendingInterrupt v l =>
    have hl : l < 8 := hc
    simp only [runCall, hasPendingInterrupt, hl, dite_true, Option.map_some']
    exact ⟨_, _, rfl, hinv⟩
  | readIrqUserVector l =>
    have hl : l < 8 := hc
    cases hq : s.m_pendingInterrupts ⟨l, hl⟩ with
    | nil =>
      simp only [runCall, readIrqUserVector_nil s l hl hq, Option.map_some']
      exact ⟨_, _, rfl, hinv⟩
    | cons v rest =>
      simp only [runCall, readIrqUserVector_cons s l hl v rest hq, Option.map_some']
      exact ⟨_, _, rfl, rfl⟩

theorem runCalls_keeps_ipl (cs : List Call) (hcs : ∀ c ∈ cs, c.level < 8) (s : Mc68k G S Q)
    (hinv : s.m_cpuState.int_level = highestPendingLevel s.m_pendingInterrupts) :
    ∃ rs s1, runCalls s cs = some (rs, s1) ∧
      s1.m_cpuState.int_level = highestPendingLevel s1.m_pendingInterrupts := by
  induction cs generalizing s with
  | nil => exact ⟨[], s, rfl, hinv⟩
  | cons c cs ih =>
    obtain ⟨r, s1, e1, inv1⟩ := runCall_keeps_ipl s c (hcs c (List.mem_cons_self _ _)) hinv
    obtain ⟨rs, s2, e2, inv2⟩ := ih (fun c hc => hcs c (List.mem_cons_of_mem _ hc)) s1 inv1
    exact ⟨r :: rs, s2, by simp [runCalls, e1, e2], inv2⟩

theorem highestPendingLevel_init : highestPendingLevel (fun _ => []) = 0 := by
  apply IsHighestPending.unique (highestPendingLevel_spec _)
  exact ⟨fun l _ hq => absurd rfl hq, Or.inl rfl⟩

/-- C1: IPL correctness as a reachable-state invariant.  Starting from a freshly constructed
controller, every sequence of `injectInterrupt`, `readIrqUserVector` (and `hasPendingInterrupt`)
calls with levels 0..7 runs to completion, and in the state it reaches the level last asserted
on the interrupt pin is the highest level in 1..7 whose queue is non-empty, and 0 if there is
none.  Since the sequence is arbitrary, this holds after every single call. -/
theorem ipl_correct_in_every_reachable_state (g : G) (sm : S) (q : Q) (cs : List Call)
    (hcs : ∀ c ∈ cs, c.level < 8) :
    ∃ rs s, runCalls (Mc68k.init g sm q) cs = some (rs, s) ∧
      s.m_cpuState.int_level = highestPendingLevel s.m_pendingInterrupts ∧
      IsHighestPending s.m_pendingInterrupts s.m_cpuState.int_level := by
  obtain ⟨rs, s, e, inv⟩ := runCalls_keeps_ipl cs hcs (Mc68k.init g sm q)
    (by simp [Mc68k.init, highestPendingLevel_init])
  exact ⟨rs, s, e, inv, inv ▸ highestPendingLevel_spec _⟩

/-- Witness of C1 on the spec's example: inject 0x19 at level 5, then 0x1A at level 3 gives
IPL 5; after `readIrqUserVector(5)`, which returns 0x19, the IPL is 3. -/
theorem ipl_correct_in_every_reachable_state_witness :
    (∀ c ∈ [Call.injectInterrupt 0x19 5, Call.injectInterrupt 0x1A 3, Call.readIrqUserVector 5],
      c.level < 8) ∧
    (∃ rs s, runCalls fresh
        [Call.injectInterrupt 0x19 5, Call.injectInterrupt 0x1A 3, Call.readIrqUserVector 5]
          = some (rs, s) ∧
      s.m_cpuState.int_level = highestPendingLevel s.m_pendingInterrupts ∧
      IsHighestPending s.m_pendingInterrupts s.m_cpuState.int_level) ∧
    (runCalls fresh [Call.injectInterrupt 0x19 5, Call.injectInterrupt 0x1A 3]).map
        (fun r => r.2.m_cpuState.int_level) = some 5 ∧
    (runCalls fresh
        [Call.injectInterrupt 0x19 5, Call.injectInterrupt 0x1A 3, Call.readIrqUserVector 5]).map
        (fun r => (r.1, r.2.m_cpuState.int_level))
      = some ([Ret.void, Ret.void, Ret.uint32 0x19], 3) :=
  ⟨by decide,
   ipl_correct_in_every_reachable_state () () ()
     [Call.injectInterrupt 0x19 5, Call.injectInterrupt 0x1A 3, Call.readIrqUserVector 5]
     (by decide),
   by decide, by decide⟩

/-- Injecting a list of vectors at one level appends the list to that level's queue. -/
theorem injectAll_appends (l : Nat) (hl : l < 8) (vs : List Nat) (s : Mc68k G S Q) :
    ∃ s1, injectAll s l vs = some s1 ∧
      s1.m_pendingInterrupts =
        Function.update s.m_pendingInterrupts ⟨l, hl⟩ (s.m_pendingInterrupts ⟨l, hl⟩ ++ vs) ∧
      s1.m_cycles = s.m_cycles := by
  induction vs generalizing s with
  | nil => exact ⟨s, rfl, by simp, rfl⟩
  | cons v vs ih =>
    obtain ⟨s2, e2, q2, c2⟩ := ih
      (m68k_set_irq
        { s with m_pendingInterrupts :=
            Function.update s.m_pendingInterrupts ⟨l, hl⟩ (s.m_pendingInterrupts ⟨l, hl⟩ ++ [v]) }
        (highestPendingLevel
          (Function.update s.m_pendingInterrupts ⟨l, hl⟩ (s.m_pendingInterrupts ⟨l, hl⟩ ++ [v]))))
    refine ⟨s2, ?_, ?_, ?_⟩
    · simp only [injectAll, injectInterrupt_eq s v l hl]
      exact e2
    · rw [q2]
      simp [m68k_set_irq]
    · rw [c2]
      rfl

/-- Reading as many times as a prefix of the queue is long returns that prefix, front first,
and leaves the remainder queued. -/
theorem readMany_prefix (l : Nat) (hl : l < 8) (vs rest : List Nat) (s : Mc68k G S Q)
    (hq : s.m_pendingInterrupts ⟨l, hl⟩ = vs ++ rest) :
    ∃ s1, readMany s l vs.length = some (vs, s1) ∧
      s1.m_pendingInterrupts = Function.update s.m_pendingInterrupts ⟨l, hl⟩ rest ∧
      s1.m_cycles = s.m_cycles := by
  induction vs generalizing s with
  | nil =>
    refine ⟨s, rfl, ?_, rfl⟩
    rw [← hq.trans (List.nil_append rest)]
    simp
  | cons v vs ih =>
    obtain ⟨s2, e2, q2, c2⟩ := ih
      (m68k_set_irq
        (m68k_set_irq
          { s with m_pendingInterrupts :=
              Function.update s.m_pendingInterrupts ⟨l, hl⟩ (vs ++ rest) } 0)
        (highestPendingLevel (Function.update s.m_pendingInterrupts ⟨l, hl⟩ (vs ++ rest))))
      (by simp [m68k_set_irq])
    refine ⟨s2, ?_, ?_, ?_⟩
    · simp only [List.length_cons, readMany,
        readIrqUserVector_cons s l hl v (vs ++ rest) (by simpa using hq)]
      rw [e2]
    · rw [q2]
      simp [m68k_set_irq]
    · rw [c2]
      rfl

/-- C2: FIFO ordering.  For every level `l` in 0..7 (in particular 1..7) whose queue is empty
and every finite sequence `vs` of vectors, the calls `injectInterrupt(v, l)` for `v` in `vs`
all succeed, and the `vs.length` following `readIrqUserVector(l)` calls succeed and return
exactly `vs`, in injection order. -/
theorem fifo_ordering (s : Mc68k G S Q) (l : Nat) (hl : l < 8)
    (hempty : s.m_pendingInterrupts ⟨l, hl⟩ = []) (vs : List Nat) :
    ∃ s1 s2, injectAll s l vs = some s1 ∧ readMany s1 l vs.length = some (vs, s2) := by
  obtain ⟨s1, e1, q1, _⟩ := injectAll_appends l hl vs s
  obtain ⟨s2, e2, _, _⟩ := readMany_prefix l hl vs [] s1 (by simp [q1, hempty])
  exact ⟨s1, s2, e1, e2⟩

/-- Witness of C2: three vectors (one of them twice) injected at the empty level 4 of a fresh
controller come back in injection order. -/
theorem fifo_ordering_witness :
    fresh.m_pendingInterrupts ⟨4, by decide⟩ = [] ∧
    ∃ s1 s2, injectAll fresh 4 [0x40, 0x19, 0x40] = some s1 ∧
      readMany s1 4 [0x40, 0x19, 0x40].length = some ([0x40, 0x19, 0x40], s2) :=
  ⟨rfl, fifo_ordering fresh 4 (by decide) rfl [0x40, 0x19, 0x40]⟩

/-- C3: empty-level acknowledge.  For every level `l` in 0..7 whose queue is empty,
`readIrqUserVector(l)` returns the AUTOVECTOR sentinel and the state after the call is the
state before it: all eight queues are unchanged, nothing was written to the interrupt pin (the
write history is the same) and the asserted level is the same. -/
theorem empty_level_acknowledge (s : Mc68k G S Q) (l : Nat) (hl : l < 8)
    (hempty : s.m_pendingInterrupts ⟨l, hl⟩ = []) :
    ∃ s1, readIrqUserVector s l = some (M68K_INT_ACK_AUTOVECTOR, s1) ∧
      s1 = s ∧
      s1.m_pendingInterrupts = s.m_pendingInterrupts ∧
      s1.m_cpuState.irqWrites = s.m_cpuState.irqWrites ∧
      s1.m_cpuState.int_level = s.m_cpuState.int_level :=
  ⟨s, readIrqUserVector_nil s l hl hempty, rfl, rfl, rfl, rfl⟩

/-- Witness of C3: level 4 of the controller `busy` is empty; acknowledging it returns the
sentinel and changes nothing, the pin still carries 5. -/
theorem empty_level_acknowledge_witness :
    busy.m_pendingInterrupts ⟨4, by decide⟩ = [] ∧
    ∃ s1, readIrqUserVector busy 4 = some (M68K_INT_ACK_AUTOVECTOR, s1) ∧
      s1 = busy ∧
      s1.m_pendingInterrupts = busy.m_pendingInterrupts ∧
      s1.m_cpuState.irqWrites = busy.m_cpuState.irqWrites ∧
      s1.m_cpuState.int_level = busy.m_cpuState.int_level :=
  ⟨rfl, empty_level_acknowledge busy 4 (by decide) rfl⟩

/-- C4: acknowledge of a non-empty level.  For every level `l` in 0..7 whose queue is
`v :: rest`, `readIrqUserVector(l)` returns `v`, leaves level `l` with `rest`, leaves every
other level's queue (and the cycle counter) unchanged, and writes the interrupt pin exactly
twice: first 0, then the highest level in 1..7 that is still non-empty (0 if none), which is
then the asserted level; so every level in 1..7 that is still pending is at or below the
asserted level. -/
theorem acknowledge_nonempty_level (s : Mc68k G S Q) (l : Nat) (hl : l < 8) (v : Nat)
    (rest : List Nat) (hq : s.m_pendingInterrupts ⟨l, hl⟩ = v :: rest) :
    ∃ s1, readIrqUserVector s l = some (v, s1) ∧
      s1.m_pendingInterrupts ⟨l, hl⟩ = rest ∧
      (∀ k : Fin 8, k ≠ ⟨l, hl⟩ → s1.m_pendingInterrupts k = s.m_pendingInterrupts k) ∧
      s1.m_cycles = s.m_cycles ∧
      s1.m_cpuState.irqWrites =
        s.m_cpuState.irqWrites ++ [0, highestPendingLevel s1.m_pendingInterrupts] ∧
      s1.m_cpuState.int_level = highestPendingLevel s1.m_pendingInterrupts ∧
      IsHighestPending s1.m_pendingInterrupts s1.m_cpuState.int_level := by
  refine ⟨_, readIrqUserVector_cons s l hl v rest hq, ?_, ?_, rfl, ?_, rfl, ?_⟩
  · simp [m68k_set_irq]
  · intro k hk
    simp [m68k_set_irq, Function.update_noteq hk]
  · simp [m68k_set_irq]
  · exact highestPendingLevel_spec _

/-- Witness of C4 on the controller `busy`: acknowledging level 5 returns 0x19, empties level
5, keeps levels 3 and 0, and writes 0 and then 3 to the pin, so the still-pending level 3
becomes the asserted level. -/
theorem acknowledge_nonempty_level_witness :
    busy.m_pendingInterrupts ⟨5, by decide⟩ = [0x19] ∧
    (∃ s1, readIrqUserVector busy 5 = some (0x19, s1) ∧
      s1.m_pendingInterrupts ⟨5, by decide⟩ = [] ∧
      (∀ k : Fin 8, k ≠ ⟨5, by decide⟩ →
        s1.m_pendingInterrupts k = busy.m_pendingInterrupts k) ∧
      s1.m_cycles = busy.m_cycles ∧
      s1.m_cpuState.irqWrites =
        busy.m_cpuState.irqWrites ++ [0, highestPendingLevel s1.m_pendingInterrupts] ∧
      s1.m_cpuState.int_level = highestPendingLevel s1.m_pendingInterrupts ∧
      IsHighestPending s1.m_pendingInterrupts s1.m_cpuState.int_level) ∧
    (readIrqUserVector busy 5).map
        (fun r => (r.1, r.2.m_cpuState.int_level, r.2.m_cpuState.irqWrites,
          r.2.m_pendingInterrupts 5, r.2.m_pendingInterrupts 3, r.2.m_pendingInterrupts 0))
      = some (0x19, 3, [3, 3, 5, 5, 5, 0, 3], [], [0x1A, 0x1B, 0x1A], [0x07]) :=
  ⟨rfl, acknowledge_nonempty_level busy 5 (by decide) 0x19 [] rfl, by rfl⟩

/-- C5: `injectInterrupt` appends without deduplication.  For every vector `v` and level `l`
in 0..7 (in particular 1..7) the call succeeds; level `l` then holds its old contents followed
by `v`, so its length and the number of occurrences of `v` in it each grow by exactly 1; the
queues of all other levels and the cycle counter are unchanged; and the next
`length + 1` acknowledges of level `l` return the old contents followed by `v`, each queued
entry once and oldest first, after which level `l` is empty. -/
theorem inject_appends_without_dedup (s : Mc68k G S Q) (v l : Nat) (hl : l < 8) :
    ∃ s1, injectInterrupt s v l = some s1 ∧
      s1.m_pendingInterrupts ⟨l, hl⟩ = s.m_pendingInterrupts ⟨l, hl⟩ ++ [v] ∧
      (s1.m_pendingInterrupts ⟨l, hl⟩).length = (s.m_pendingInterrupts ⟨l, hl⟩).length + 1 ∧
      (s1.m_pendingInterrupts ⟨l, hl⟩).count v = (s.m_pendingInterrupts ⟨l, hl⟩).count v + 1 ∧
      (∀ k : Fin 8, k ≠ ⟨l, hl⟩ → s1.m_pendingInterrupts k = s.m_pendingInterrupts k) ∧
      s1.m_cycles = s.m_cycles ∧
      ∃ s2, readMany s1 l ((s.m_pendingInterrupts ⟨l, hl⟩).length + 1)
          = some (s.m_pendingInterrupts ⟨l, hl⟩ ++ [v], s2) ∧
        s2.m_pendingInterrupts ⟨l, hl⟩ = [] := by
  have hq1 : (m68k_set_irq
        { s with m_pendingInterrupts :=
            Function.update s.m_pendingInterrupts ⟨l, hl⟩ (s.m_pendingInterrupts ⟨l, hl⟩ ++ [v]) }
        (highestPendingLevel
          (Function.update s.m_pendingInterrupts ⟨l, hl⟩
            (s.m_pendingInterrupts ⟨l, hl⟩ ++ [v])))).m_pendingInterrupts ⟨l, hl⟩
      = s.m_pendingInterrupts ⟨l, hl⟩ ++ [v] := by
    simp [m68k_set_irq]
  refine ⟨_, injectInterrupt_eq s v l hl, hq1, ?_, ?_, ?_, rfl, ?_⟩
  · rw [hq1]; simp
  · rw [hq1]; simp
  · intro k hk
    simp [m68k_set_irq, Function.update_noteq hk]
  · obtain ⟨s2, e2, q2, _⟩ := readMany_prefix l hl (s.m_pendingInterrupts ⟨l, hl⟩ ++ [v]) [] _
      (by rw [hq1]; simp)
    refine ⟨s2, ?_, ?_⟩
    · simpa using e2
    · rw [q2]; simp

/-- Witness of C5 on the controller `busy`, whose level 3 already holds 0x1A twice: injecting
0x1A at level 3 once more makes the queue `[0x1A, 0x1B, 0x1A, 0x1A]`, and four acknowledges
of level 3 return exactly these, the fifth returns the sentinel. -/
theorem inject_appends_without_dedup_witness :
    3 < 8 ∧
    (∃ s1, injectInterrupt busy 0x1A 3 = some s1 ∧
      s1.m_pendingInterrupts ⟨3, by decide⟩ = busy.m_pendingInterrupts ⟨3, by decide⟩ ++ [0x1A] ∧
      (s1.m_pendingInterrupts ⟨3, by decide⟩).length
        = (busy.m_pendingInterrupts ⟨3, by decide⟩).length + 1 ∧
      (s1.m_pendingInterrupts ⟨3, by decide⟩).count 0x1A
        = (busy.m_pendingInterrupts ⟨3, by decide⟩).count 0x1A + 1 ∧
      (∀ k : Fin 8, k ≠ ⟨3, by decide⟩ →
        s1.m_pendingInterrupts k = busy.m_pendingInterrupts k) ∧
      s1.m_cycles = busy.m_cycles ∧
      ∃ s2, readMany s1 3 ((busy.m_pendingInterrupts ⟨3, by decide⟩).length + 1)
          = some (busy.m_pendingInterrupts ⟨3, by decide⟩ ++ [0x1A], s2) ∧
        s2.m_pendingInterrupts ⟨3, by decide⟩ = []) ∧
    ((injectInterrupt busy 0x1A 3).bind fun s1 => readMany s1 3 5).map (fun r => r.1)
      = some [0x1A, 0x1B, 0x1A, 0x1A, M68K_INT_ACK_AUTOVECTOR] :=
  ⟨by decide, inject_appends_without_dedup busy 0x1A 3 (by decide), by decide⟩

/-- The scan of `hasPendingInterrupt` finds `v` exactly when `v` is an element. -/
theorem hasPendingInterrupt_loop_iff (v : Nat) (ints : List Nat) :
    hasPendingInterrupt_loop v ints = true ↔ v ∈ ints := by
  induction ints with
  | nil => simp [hasPendingInterrupt_loop]
  | cons i rest ih =>
    by_cases h : i = v
    · simp [hasPendingInterrupt_loop, h]
    · have h2 : ¬ v = i := fun e => h e.symm
      simp [hasPendingInterrupt_loop, h, h2, ih]

/-- The calls `hasPendingInterrupt(v, l)` for the pairs `(v, l)` of a list. -/
theorem runCalls_queries (qs : List (Nat × Nat)) (hqs : ∀ p ∈ qs, p.2 < 8) (s : Mc68k G S Q)
    (cs : List Call) (rs : List Ret) (sf : Mc68k G S Q) (h : runCalls s cs = some (rs, sf)) :
    ∃ bs : List Ret, bs.length = qs.length ∧
      runCalls s (qs.map (fun p => Call.hasPendingInterrupt p.1 p.2) ++ cs)
        = some (bs ++ rs, sf) := by
  induction qs with
  | nil => exact ⟨[], rfl, by simpa using h⟩
  | cons p qs ih =>
    obtain ⟨bs, hlen, e⟩ := ih (fun p hp => hqs p (List.mem_cons_of_mem _ hp))
    have hp : p.2 < 8 := hqs p (List.mem_cons_self _ _)
    refine ⟨Ret.bool (hasPendingInterrupt_loop p.1 (s.m_pendingInterrupts ⟨p.2, hp⟩)) :: bs,
      by simp [hlen], ?_⟩
    have e2 : runCalls s ((List.map (fun p => Call.hasPendingInterrupt p.1 p.2) qs).append cs)
        = some (bs ++ rs, sf) := e
    simp only [List.map_cons, List.cons_append, runCalls, runCall, hasPendingInterrupt, hp,
      dite_true, Option.map_some', e2]

/-- C6: non-mutating query.  For every controller state `s`, vector `v` and level `l` in 0..7,
`hasPendingInterrupt(v, l)` returns a boolean and leaves the state as it was (all eight queues,
the asserted pin level, the pin write history and the cycle counter).  Consequently, for any
list `qs` of queries with levels 0..7 placed between `readIrqUserVector(l1)` and
`readIrqUserVector(l2)`, both acknowledges return what they return without the queries, and the
final state is the same. -/
theorem hasPendingInterrupt_non_mutating (s : Mc68k G S Q) (v l : Nat) (hl : l < 8)
    (qs : List (Nat × Nat)) (hqs : ∀ p ∈ qs, p.2 < 8) (l1 l2 : Nat) (h1 : l1 < 8)
    (h2 : l2 < 8) :
    (∃ b s1, runCall s (Call.hasPendingInterrupt v l) = some (Ret.bool b, s1) ∧
      s1 = s ∧
      s1.m_pendingInterrupts = s.m_pendingInterrupts ∧
      s1.m_cpuState.int_level = s.m_cpuState.int_level ∧
      s1.m_cpuState.irqWrites = s.m_cpuState.irqWrites ∧
      getCycles s1 = getCycles s) ∧
    (∃ r1 r2 sf bs,
      runCalls s [Call.readIrqUserVector l1, Call.readIrqUserVector l2]
        = some ([Ret.uint32 r1, Ret.uint32 r2], sf) ∧
      runCalls s (Call.readIrqUserVector l1 ::
          (qs.map (fun p => Call.hasPendingInterrupt p.1 p.2) ++ [Call.readIrqUserVector l2]))
        = some (Ret.uint32 r1 :: (bs ++ [Ret.uint32 r2]), sf) ∧
      bs.length = qs.length) := by
  constructor
  · simp only [runCall, hasPendingInterrupt, hl, dite_true, Option.map_some']
    exact ⟨_, _, rfl, rfl, rfl, rfl, rfl, rfl⟩
  · have step : ∀ (t : Mc68k G S Q) (k : Nat), k < 8 →
        ∃ r t1, readIrqUserVector t k = some (r, t1) := by
      intro t k hk
      cases hq : t.m_pendingInterrupts ⟨k, hk⟩ with
      | nil => exact ⟨_, _, readIrqUserVector_nil t k hk hq⟩
      | cons v rest => exact ⟨_, _, readIrqUserVector_cons t k hk v rest hq⟩
    obtain ⟨r1, t1, e1⟩ := step s l1 h1
    obtain ⟨r2, t2, e2⟩ := step t1 l2 h2
    have tail : runCalls t1 [Call.readIrqUserVector l2] = some ([Ret.uint32 r2], t2) := by
      simp [runCalls, runCall, e2]
    obtain ⟨bs, hlen, e⟩ := runCalls_queries qs hqs t1 _ _ _ tail
    refine ⟨r1, r2, t2, bs, ?_, ?_, hlen⟩
    · simp [runCalls, runCall, e1, e2]
    · simp only [runCalls, runCall, e1, Option.map_some', e]

/-- Witness of C6 on the controller `busy`: three queries between the acknowledges of level 5
and level 3 change neither what the acknowledges return (0x19, then 0x1A) nor the final pin
level. -/
theorem hasPendingInterrupt_non_mutating_witness :
    (3 < 8 ∧ (∀ p ∈ [((0x1A : Nat), (3 : Nat)), (0x19, 5), (0x07, 0)], p.2 < 8) ∧ 5 < 8) ∧
    ((∃ b s1, runCall busy (Call.hasPendingInterrupt 0x1B 3) = some (Ret.bool b, s1) ∧
      s1 = busy ∧
      s1.m_pendingInterrupts = busy.m_pendingInterrupts ∧
      s1.m_cpuState.int_level = busy.m_cpuState.int_level ∧
      s1.m_cpuState.irqWrites = busy.m_cpuState.irqWrites ∧
      getCycles s1 = getCycles busy) ∧
    (∃ r1 r2 sf bs,
      runCalls busy [Call.readIrqUserVector 5, Call.readIrqUserVector 3]
        = some ([Ret.uint32 r1, Ret.uint32 r2], sf) ∧
      runCalls busy (Call.readIrqUserVector 5 ::
          ([((0x1A : Nat), (3 : Nat)), (0x19, 5), (0x07, 0)].map
              (fun p => Call.hasPendingInterrupt p.1 p.2) ++ [Call.readIrqUserVector 3]))
        = some (Ret.uint32 r1 :: (bs ++ [Ret.uint32 r2]), sf) ∧
      bs.length = [((0x1A : Nat), (3 : Nat)), (0x19, 5), (0x07, 0)].length)) ∧
    (runCalls busy [Call.readIrqUserVector 5, Call.hasPendingInterrupt 0x1A 3,
        Call.hasPendingInterrupt 0x19 5, Call.hasPendingInterrupt 0x07 0,
        Call.readIrqUserVector 3]).map (fun r => (r.1, r.2.m_cpuState.int_level))
      = some ([Ret.uint32 0x19, Ret.bool true, Ret.bool false, Ret.bool true, Ret.uint32 0x1A],
          3) ∧
    (runCalls busy [Call.readIrqUserVector 5, Call.readIrqUserVector 3]).map
        (fun r => (r.1, r.2.m_cpuState.int_level))
      = some ([Ret.uint32 0x19, Ret.uint32 0x1A], 3) :=
  ⟨by decide,
    hasPendingInterrupt_non_mutating busy 0x1B 3 (by decide)
      [(0x1A, 3), (0x19, 5), (0x07, 0)] (by decide) 5 3 (by decide) (by decide),
    by decide, by decide⟩

/-- C7: `hasPendingInterrupt` is a membership test of one level's queue.  For every vector `v`
and level `l` in 0..7 the call returns a boolean that is true if and only if `v` occurs in
level `l`'s queue; the answer is the same in every state with the same queue at level `l`,
whatever is queued at the other levels. -/
theorem hasPendingInterrupt_is_membership (s : Mc68k G S Q) (v l : Nat) (hl : l < 8) :
    ∃ b, hasPendingInterrupt s v l = some b ∧
      (b = true ↔ v ∈ s.m_pendingInterrupts ⟨l, hl⟩) ∧
      ∀ t : Mc68k G S Q, t.m_pendingInterrupts ⟨l, hl⟩ = s.m_pendingInterrupts ⟨l, hl⟩ →
        hasPendingInterrupt t v l = some b := by
  refine ⟨hasPendingInterrupt_loop v (s.m_pendingInterrupts ⟨l, hl⟩), ?_,
    hasPendingInterrupt_loop_iff v _, ?_⟩
  · simp [hasPendingInterrupt, hl]
  · intro t ht
    simp [hasPendingInterrupt, hl, ht]

/-- Witness of C7 on the controller `busy`, where 0x1A is queued at level 3 only: the query
is true at level 3 and false at level 5, and 0x1B, queued behind 0x1A, is found as well. -/
theorem hasPendingInterrupt_is_membership_witness :
    5 < 8 ∧
    (∃ b, hasPendingInterrupt busy 0x1A 5 = some b ∧
      (b = true ↔ 0x1A ∈ busy.m_pendingInterrupts ⟨5, by decide⟩) ∧
      ∀ t : Bare, t.m_pendingInterrupts ⟨5, by decide⟩ = busy.m_pendingInterrupts ⟨5, by decide⟩ →
        hasPendingInterrupt t 0x1A 5 = some b) ∧
    hasPendingInterrupt busy 0x1A 5 = some false ∧
    hasPendingInterrupt busy 0x1A 3 = some true ∧
    hasPendingInterrupt busy 0x1B 3 = some true ∧
    hasPendingInterrupt busy 0x19 3 = some false :=
  ⟨by decide, hasPendingInterrupt_is_membership busy 0x1A 5 (by decide), by decide, by decide,
    by decide, by decide⟩

/-! ## Peripheral bus router -/

/-- The three ways `firstAccepting` can name a block, and the one way it names none. -/
theorem firstAccepting_cases (P : Peripherals (Mc68k G S Q)) (s : Mc68k G S Q) (addr : Nat) :
    (P.gpt.isInRange s addr = true ∧ firstAccepting P s addr = some Block.gpt) ∨
    (P.gpt.isInRange s addr = false ∧ P.sim.isInRange s addr = true ∧
      firstAccepting P s addr = some Block.sim) ∨
    (P.gpt.isInRange s addr = false ∧ P.sim.isInRange s addr = false ∧
      P.qsm.isInRange s addr = true ∧ firstAccepting P s addr = some Block.qsm) ∨
    (P.gpt.isInRange s addr = false ∧ P.sim.isInRange s addr = false ∧
      P.qsm.isInRange s addr = false ∧ firstAccepting P s addr = none) := by
  cases hg : P.gpt.isInRange s addr <;> cases hs : P.sim.isInRange s addr <;>
    cases hq : P.qsm.isInRange s addr <;>
    simp [firstAccepting, List.find?, Peripherals.block, hg, hs, hq]

/-- C8: first-match dispatch in the fixed order Timer, SystemIntegration, SerialQueue.  For
every address `a`, value `x` and arbitrary (possibly overlapping, possibly state-dependent)
range predicates, if `b` is the first block in that order whose `isInRange` accepts the masked
address (so `b` accepts it and no block before `b` does, and `b` is the Timer whenever the
Timer accepts it), then each of `read8`, `read16`, `write8` and `write16` invokes exactly one
block member function, namely the corresponding one of `b` with the masked address, the other
two blocks receive no read or write, reads return the value `b` returned, and the state
afterwards is the one `b` left. -/
theorem first_match_dispatch (P : Peripherals (Mc68k G S Q)) (s : Mc68k G S Q) (a x : Nat)
    (b : Block) (hb : firstAccepting P s (a &&& P.g_peripheralMask) = some b) :
    (P.block b).isInRange s (a &&& P.g_peripheralMask) = true ∧
    (∀ b2 : Block, b2.order < b.order →
      (P.block b2).isInRange s (a &&& P.g_peripheralMask) = false) ∧
    (P.gpt.isInRange s (a &&& P.g_peripheralMask) = true → b = Block.gpt) ∧
    read8 P s a =
      { value := ((P.block b).read8 s (a &&& P.g_peripheralMask)).1
        state := ((P.block b).read8 s (a &&& P.g_peripheralMask)).2
        delivered := [⟨b, Access.read8, a &&& P.g_peripheralMask⟩] } ∧
    read16 P s a =
      { value := ((P.block b).read16 s (a &&& P.g_peripheralMask)).1
        state := ((P.block b).read16 s (a &&& P.g_peripheralMask)).2
        delivered := [⟨b, Access.read16, a &&& P.g_peripheralMask⟩] } ∧
    write8 P s a x =
      { state := (P.block b).write8 s (a &&& P.g_peripheralMask) x
        delivered := [⟨b, Access.write8 x, a &&& P.g_peripheralMask⟩] } ∧
    write16 P s a x =
      { state := (P.block b).write16 s (a &&& P.g_peripheralMask) x
        delivered := [⟨b, Access.write16 x, a &&& P.g_peripheralMask⟩] } := by
  rcases firstAccepting_cases P s (a &&& P.g_peripheralMask) with
    ⟨hg, e⟩ | ⟨hg, hs, e⟩ | ⟨hg, hs, hq, e⟩ | ⟨hg, hs, hq, e⟩
  · obtain rfl : Block.gpt = b := Option.some.inj (e.symm.trans hb)
    refine ⟨hg, ?_, fun _ => rfl, ?_, ?_, ?_, ?_⟩
    · intro b2 h2
      cases b2 <;> simp [Block.order] at h2
    all_goals simp [read8, read16, write8, write16, Peripherals.block, hg]
  · obtain rfl : Block.sim = b := Option.some.inj (e.symm.trans hb)
    refine ⟨hs, ?_, fun h => by simp [hg] at h, ?_, ?_, ?_, ?_⟩
    · intro b2 h2
      cases b2 <;> simp [Block.order] at h2
      exact hg
    all_goals simp [read8, read16, write8, write16, Peripherals.block, hg, hs]
  · obtain rfl : Block.qsm = b := Option.some.inj (e.symm.trans hb)
    refine ⟨hq, ?_, fun h => by simp [hg] at h, ?_, ?_, ?_, ?_⟩
    · intro b2 h2
      cases b2 <;> simp [Block.order] at h2
      · exact hg
      · exact hs
    all_goals simp [read8, read16, write8, write16, Peripherals.block, hg, hs, hq]
  · rw [e] at hb
    cases hb

/-- Witness of C8 with the overlapping blocks: the masked address 0x930 lies in the ranges of
all three blocks and is delivered to the Timer alone; 0x950 lies in the ranges of
SystemIntegration and SerialQueue and is delivered to SystemIntegration alone. -/
theorem first_match_dispatch_witness :
    firstAccepting overlapping fresh (0xFFF00930 &&& overlapping.g_peripheralMask)
      = some Block.gpt ∧
    ((overlapping.block Block.gpt).isInRange fresh
        (0xFFF00930 &&& overlapping.g_peripheralMask) = true ∧
    (∀ b2 : Block, b2.order < Block.gpt.order →
      (overlapping.block b2).isInRange fresh
        (0xFFF00930 &&& overlapping.g_peripheralMask) = false) ∧
    (overlapping.gpt.isInRange fresh (0xFFF00930 &&& overlapping.g_peripheralMask) = true →
      Block.gpt = Block.gpt) ∧
    read8 overlapping fresh 0xFFF00930 =
      { value := ((overlapping.block Block.gpt).read8 fresh
          (0xFFF00930 &&& overlapping.g_peripheralMask)).1
        state := ((overlapping.block Block.gpt).read8 fresh
          (0xFFF00930 &&& overlapping.g_peripheralMask)).2
        delivered :=
          [⟨Block.gpt, Access.read8, 0xFFF00930 &&& overlapping.g_peripheralMask⟩] } ∧
    read16 overlapping fresh 0xFFF00930 =
      { value := ((overlapping.block Block.gpt).read16 fresh
          (0xFFF00930 &&& overlapping.g_peripheralMask)).1
        state := ((overlapping.block Block.gpt).read16 fresh
          (0xFFF00930 &&& overlapping.g_peripheralMask)).2
        delivered :=
          [⟨Block.gpt, Access.read16, 0xFFF00930 &&& overlapping.g_peripheralMask⟩] } ∧
    write8 overlapping fresh 0xFFF00930 7 =
      { state := (overlapping.block Block.gpt).write8 fresh
          (0xFFF00930 &&& overlapping.g_peripheralMask) 7
        delivered :=
          [⟨Block.gpt, Access.write8 7, 0xFFF00930 &&& overlapping.g_peripheralMask⟩] } ∧
    write16 overlapping fresh 0xFFF00930 7 =
      { state := (overlapping.block Block.gpt).write16 fresh
          (0xFFF00930 &&& overlapping.g_peripheralMask) 7
        delivered :=
          [⟨Block.gpt, Access.write16 7, 0xFFF00930 &&& overlapping.g_peripheralMask⟩] }) ∧
    (overlapping.sim.isInRange fresh 0x930 = true ∧
      overlapping.qsm.isInRange fresh 0x930 = true) ∧
    (read8 overlapping fresh 0xFFF00930).delivered = [⟨Block.gpt, Access.read8, 0x930⟩] ∧
    (read8 overlapping fresh 0xFFF00930).value = 1 ∧
    (write16 overlapping fresh 0xFFF00930 7).delivered
      = [⟨Block.gpt, Access.write16 7, 0x930⟩] ∧
    (write16 overlapping fresh 0xFFF00930 7).state.m_cycles = 7 ∧
    (read16 overlapping fresh 0xFFF00950).delivered = [⟨Block.sim, Access.read16, 0x950⟩] ∧
    (read16 overlapping fresh 0xFFF00950).value = 2 :=
  ⟨by decide, first_match_dispatch overlapping fresh 0xFFF00930 7 Block.gpt (by decide),
    by decide, by decide, by decide, by decide, by decide, by decide, by decide⟩

/-- C9: unclaimed address.  For every address `a` whose masked value is in none of the three
blocks' ranges, `read8(a)` and `read16(a)` return 0, `write8(a, x)` and `write16(a, x)` invoke
no block member function, and all four leave the controller state (queues, pin, cycle counter
and everything else) as it was.  The four operations are total: they have no error result. -/
theorem unclaimed_address (P : Peripherals (Mc68k G S Q)) (s : Mc68k G S Q) (a x : Nat)
    (hg : P.gpt.isInRange s (a &&& P.g_peripheralMask) = false)
    (hs : P.sim.isInRange s (a &&& P.g_peripheralMask) = false)
    (hq : P.qsm.isInRange s (a &&& P.g_peripheralMask) = false) :
    read8 P s a = { value := 0, state := s, delivered := [] } ∧
    read16 P s a = { value := 0, state := s, delivered := [] } ∧
    write8 P s a x = { state := s, delivered := [] } ∧
    write16 P s a x = { state := s, delivered := [] } ∧
    (write8 P s a x).state.m_pendingInterrupts = s.m_pendingInterrupts ∧
    (write8 P s a x).state.m_cpuState.int_level = s.m_cpuState.int_level ∧
    (write8 P s a x).state.m_cpuState.irqWrites = s.m_cpuState.irqWrites ∧
    getCycles (write8 P s a x).state = getCycles s ∧
    (write16 P s a x).state.m_pendingInterrupts = s.m_pendingInterrupts ∧
    (write16 P s a x).state.m_cpuState.int_level = s.m_cpuState.int_level ∧
    (write16 P s a x).state.m_cpuState.irqWrites = s.m_cpuState.irqWrites ∧
    getCycles (write16 P s a x).state = getCycles s := by
  have r8 : read8 P s a = { value := 0, state := s, delivered := [] } := by
    simp [read8, hg, hs, hq]
  have r16 : read16 P s a = { value := 0, state := s, delivered := [] } := by
    simp [read16, hg, hs, hq]
  have w8 : write8 P s a x = { state := s, delivered := [] } := by
    simp [write8, hg, hs, hq]
  have w16 : write16 P s a x = { state := s, delivered := [] } := by
    simp [write16, hg, hs, hq]
  refine ⟨r8, r16, w8, w16, ?_⟩
  rw [w8, w16]
  exact ⟨rfl, rfl, rfl, rfl, rfl, rfl, rfl, rfl⟩

/-- Witness of C9 with the overlapping blocks on the controller `busy`: the masked address
0xf00 is in no range; the read returns 0 and the write of 7, which a block would have added to
the cycle counter, is discarded. -/
theorem unclaimed_address_witness :
    (overlapping.gpt.isInRange busy (0xFFF00f00 &&& overlapping.g_peripheralMask) = false ∧
      overlapping.sim.isInRange busy (0xFFF00f00 &&& overlapping.g_peripheralMask) = false ∧
      overlapping.qsm.isInRange busy (0xFFF00f00 &&& overlapping.g_peripheralMask) = false) ∧
    (read8 overlapping busy 0xFFF00f00 = { value := 0, state := busy, delivered := [] } ∧
    read16 overlapping busy 0xFFF00f00 = { value := 0, state := busy, delivered := [] } ∧
    write8 overlapping busy 0xFFF00f00 7 = { state := busy, delivered := [] } ∧
    write16 overlapping busy 0xFFF00f00 7 = { state := busy, delivered := [] } ∧
    (write8 overlapping busy 0xFFF00f00 7).state.m_pendingInterrupts
      = busy.m_pendingInterrupts ∧
    (write8 overlapping busy 0xFFF00f00 7).state.m_cpuState.int_level
      = busy.m_cpuState.int_level ∧
    (write8 overlapping busy 0xFFF00f00 7).state.m_cpuState.irqWrites
      = busy.m_cpuState.irqWrites ∧
    getCycles (write8 overlapping busy 0xFFF00f00 7).state = getCycles busy ∧
    (write16 overlapping busy 0xFFF00f00 7).state.m_pendingInterrupts
      = busy.m_pendingInterrupts ∧
    (write16 overlapping busy 0xFFF00f00 7).state.m_cpuState.int_level
      = busy.m_cpuState.int_level ∧
    (write16 overlapping busy 0xFFF00f00 7).state.m_cpuState.irqWrites
      = busy.m_cpuState.irqWrites ∧
    getCycles (write16 overlapping busy 0xFFF00f00 7).state = getCycles busy) ∧
    getCycles (write16 overlapping busy 0xFFF00f00 7).state = 1000 ∧
    getCycles (write16 overlapping busy 0xFFF00a90 7).state = 1007 :=
  ⟨by decide,
    unclaimed_address overlapping busy 0xFFF00f00 7 (by decide) (by decide) (by decide),
    by decide, by decide⟩

/-- Every block member function the router invokes is given the masked address. -/
theorem delivered_addr_masked (P : Peripherals (Mc68k G S Q)) (s : Mc68k G S Q) (a x : Nat) :
    (∀ d ∈ (read8 P s a).delivered, d.addr = a &&& P.g_peripheralMask) ∧
    (∀ d ∈ (read16 P s a).delivered, d.addr = a &&& P.g_peripheralMask) ∧
    (∀ d ∈ (write8 P s a x).delivered, d.addr = a &&& P.g_peripheralMask) ∧
    (∀ d ∈ (write16 P s a x).delivered, d.addr = a &&& P.g_peripheralMask) := by
  cases hg : P.gpt.isInRange s (a &&& P.g_peripheralMask) <;>
    cases hs : P.sim.isInRange s (a &&& P.g_peripheralMask) <;>
    cases hq : P.qsm.isInRange s (a &&& P.g_peripheralMask) <;>
    simp [read8, read16, write8, write16, hg, hs, hq]

/-- C10: address bits outside the peripheral mask are irrelevant to routing.  For every pair
of addresses `a` and `b` with `a AND g_peripheralMask = b AND g_peripheralMask`, each of
`read8`, `read16`, `write8` and `write16` gives, from the same state, the same outcome for `a`
as for `b`: the same block member function invoked with the same address, the same value
returned and the same state afterwards; the address handed to a block is the masked one; and
the range tests are consulted at the masked address only: replacing the range predicates by
any predicates `r` that agree with them at the masked address (in the state of the call)
changes nothing. -/
theorem masked_bits_irrelevant (P : Peripherals (Mc68k G S Q)) (s : Mc68k G S Q)
    (a b x : Nat) (hab : a &&& P.g_peripheralMask = b &&& P.g_peripheralMask)
    (r : Block → Mc68k G S Q → Nat → Bool)
    (hr : ∀ blk : Block, r blk s (a &&& P.g_peripheralMask)
      = (P.block blk).isInRange s (a &&& P.g_peripheralMask)) :
    (read8 P s a = read8 P s b ∧ read16 P s a = read16 P s b ∧
      write8 P s a x = write8 P s b x ∧ write16 P s a x = write16 P s b x) ∧
    ((∀ d ∈ (read8 P s a).delivered, d.addr = a &&& P.g_peripheralMask) ∧
      (∀ d ∈ (read16 P s a).delivered, d.addr = a &&& P.g_peripheralMask) ∧
      (∀ d ∈ (write8 P s a x).delivered, d.addr = a &&& P.g_peripheralMask) ∧
      (∀ d ∈ (write16 P s a x).delivered, d.addr = a &&& P.g_peripheralMask)) ∧
    (read8 (P.withRanges r) s a = read8 P s a ∧
      read16 (P.withRanges r) s a = read16 P s a ∧
      write8 (P.withRanges r) s a x = write8 P s a x ∧
      write16 (P.withRanges r) s a x = write16 P s a x) := by
  refine ⟨?_, delivered_addr_masked P s a x, ?_⟩
  · refine ⟨?_, ?_, ?_, ?_⟩ <;> simp only [read8, read16, write8, write16, hab]
  · have rg := hr Block.gpt
    have rs := hr Block.sim
    have rq := hr Block.qsm
    simp only [Peripherals.block] at rg rs rq
    refine ⟨?_, ?_, ?_, ?_⟩ <;>
      simp only [read8, read16, write8, write16, Peripherals.withRanges, rg, rs, rq]

/-- Witness of C10 with the overlapping blocks: 0xFFF00930 and 0x12300930 differ only outside
the mask 0xfffff; both are routed to the Timer with the address 0x930, also when every range
predicate is replaced by the test "the address is 0x930". -/
theorem masked_bits_irrelevant_witness :
    (0xFFF00930 &&& overlapping.g_peripheralMask = 0x12300930 &&& overlapping.g_peripheralMask ∧
      ∀ blk : Block,
        (fun (_ : Block) (_ : Bare) (addr : Nat) => decide (addr = 0x930)) blk fresh
            (0xFFF00930 &&& overlapping.g_peripheralMask)
          = (overlapping.block blk).isInRange fresh
              (0xFFF00930 &&& overlapping.g_peripheralMask)) ∧
    ((read8 overlapping fresh 0xFFF00930 = read8 overlapping fresh 0x12300930 ∧
      read16 overlapping fresh 0xFFF00930 = read16 overlapping fresh 0x12300930 ∧
      write8 overlapping fresh 0xFFF00930 7 = write8 overlapping fresh 0x12300930 7 ∧
      write16 overlapping fresh 0xFFF00930 7 = write16 overlapping fresh 0x12300930 7) ∧
    ((∀ d ∈ (read8 overlapping fresh 0xFFF00930).delivered,
        d.addr = 0xFFF00930 &&& overlapping.g_peripheralMask) ∧
      (∀ d ∈ (read16 overlapping fresh 0xFFF00930).delivered,
        d.addr = 0xFFF00930 &&& overlapping.g_peripheralMask) ∧
      (∀ d ∈ (write8 overlapping fresh 0xFFF00930 7).delivered,
        d.addr = 0xFFF00930 &&& overlapping.g_peripheralMask) ∧
      (∀ d ∈ (write16 overlapping fresh 0xFFF00930 7).delivered,
        d.addr = 0xFFF00930 &&& overlapping.g_peripheralMask)) ∧
    (read8 (overlapping.withRanges fun _ _ addr => decide (addr = 0x930)) fresh 0xFFF00930
        = read8 overlapping fresh 0xFFF00930 ∧
      read16 (overlapping.withRanges fun _ _ addr => decide (addr = 0x930)) fresh 0xFFF00930
        = read16 overlapping fresh 0xFFF00930 ∧
      write8 (overlapping.withRanges fun _ _ addr => decide (addr = 0x930)) fresh 0xFFF00930 7
        = write8 overlapping fresh 0xFFF00930 7 ∧
      write16 (overlapping.withRanges fun _ _ addr => decide (addr = 0x930)) fresh 0xFFF00930 7
        = write16 overlapping fresh 0xFFF00930 7)) ∧
    (read8 overlapping fresh 0x12300930).delivered = [⟨Block.gpt, Access.read8, 0x930⟩] ∧
    (read8 overlapping fresh 0xFFF00930).delivered = [⟨Block.gpt, Access.read8, 0x930⟩] ∧
    (read8 overlapping fresh 0x12300931).delivered = [⟨Block.gpt, Access.read8, 0x931⟩] :=
  ⟨⟨by decide, fun blk => by cases blk <;> rfl⟩,
    masked_bits_irrelevant overlapping fresh 0xFFF00930 0x12300930 7 (by decide)
      (fun _ _ addr => decide (addr = 0x930)) (fun blk => by cases blk <;> rfl),
    by decide, by decide, by decide⟩

/-! ## Step driver -/

/-- The cycle counter after `exec()` when neither the core's callbacks nor the blocks write
it. -/
theorem exec_cycles (P : Peripherals (Mc68k G S Q)) (hP : peripheralsKeepCycles P)
    (c : CoreRun (Mc68k G S Q)) (hc : KeepsCycles c.effect) (s : Mc68k G S Q) :
    (exec P c s).state.m_cycles = (((s.m_cycles : Int) + c.deltaCycles) % 2 ^ 64).toNat := by
  obtain ⟨hg, hs, hq⟩ := hP
  have eg := hg.2.2.2.2
  have es := hs.2.2.2.2
  have eq := hq.2.2.2.2
  simp only [KeepsCycles] at eg es eq hc
  simp only [exec, eq, es, eg, hc]

/-- Returned values and cycle counter after successive `exec()` calls. -/
theorem execMany_cycles (P : Peripherals (Mc68k G S Q)) (hP : peripheralsKeepCycles P)
    (cores : List (CoreRun (Mc68k G S Q))) (heff : ∀ c ∈ cores, KeepsCycles c.effect)
    (hd : ∀ c ∈ cores, 0 ≤ c.deltaCycles ∧ c.deltaCycles < 2 ^ 32) (s : Mc68k G S Q)
    (hs : s.m_cycles < 2 ^ 64) :
    (execMany P cores s).1 = cores.map (fun c => c.deltaCycles.toNat) ∧
    (execMany P cores s).2.m_cycles
      = (s.m_cycles + (cores.map fun c => c.deltaCycles.toNat).sum) % 2 ^ 64 := by
  induction cores generalizing s with
  | nil => exact ⟨rfl, by simp [execMany]; omega⟩
  | cons c cs ih =>
    have hc := heff c (List.mem_cons_self _ _)
    obtain ⟨d0, d1⟩ := hd c (List.mem_cons_self _ _)
    have e1 := exec_cycles P hP c hc s
    have hlt : (exec P c s).state.m_cycles < 2 ^ 64 := by rw [e1]; omega
    obtain ⟨r, m⟩ := ih (fun c hc => heff c (List.mem_cons_of_mem _ hc))
      (fun c hc => hd c (List.mem_cons_of_mem _ hc)) (exec P c s).state hlt
    constructor
    · simp only [execMany, List.map_cons, r]
      congr 1
      simp only [exec]
      omega
    · simp only [execMany, List.map_cons, List.sum_cons, m, e1]
      omega

/-- C11: cycle accounting.  For every N and every sequence of cycle counts reported by the
execution core, each at least 1 (and representable in the 32-bit return type), N successive
`exec()` calls on a freshly constructed controller return exactly these counts, in order, and
afterwards `getCycles()` equals their sum as a 64-bit unsigned value (the sum modulo 2^64).
The core's callbacks and the blocks are assumed not to write `m_cycles`, a protected member
that only `exec` assigns. -/
theorem cycle_accounting (P : Peripherals (Mc68k G S Q)) (hP : peripheralsKeepCycles P)
    (g : G) (sm : S) (q : Q) (cores : List (CoreRun (Mc68k G S Q)))
    (heff : ∀ c ∈ cores, KeepsCycles c.effect)
    (hd : ∀ c ∈ cores, 1 ≤ c.deltaCycles ∧ c.deltaCycles < 2 ^ 32) :
    List.map Int.ofNat (execMany P cores (Mc68k.init g sm q)).1
      = cores.map (fun c => c.deltaCycles) ∧
    (execMany P cores (Mc68k.init g sm q)).1.length = cores.length ∧
    getCycles (execMany P cores (Mc68k.init g sm q)).2
      = (cores.map fun c => c.deltaCycles.toNat).sum % 2 ^ 64 ∧
    (getCycles (execMany P cores (Mc68k.init g sm q)).2 : Int)
      = (cores.map fun c => c.deltaCycles).sum % 2 ^ 64 := by
  obtain ⟨r, m⟩ := execMany_cycles P hP cores heff
    (fun c hc => ⟨by have := (hd c hc).1; omega, (hd c hc).2⟩) (Mc68k.init g sm q)
    (by simp [Mc68k.init])
  have hsum : ∀ (cs : List (CoreRun (Mc68k G S Q))), (∀ c ∈ cs, 1 ≤ c.deltaCycles) →
      (((cs.map fun c => c.deltaCycles.toNat).sum : Nat) : Int)
        = (cs.map fun c => c.deltaCycles).sum := by
    intro cs
    induction cs with
    | nil => intro _; rfl
    | cons c cs ih =>
      intro h
      have h1 := h c (List.mem_cons_self _ _)
      have h2 := ih (fun c hc => h c (List.mem_cons_of_mem _ hc))
      simp only [List.map_cons, List.sum_cons]
      omega
  have hs := hsum cores (fun c hc => (hd c hc).1)
  have hm : getCycles (execMany P cores (Mc68k.init g sm q)).2
      = (cores.map fun c => c.deltaCycles.toNat).sum % 2 ^ 64 := by
    rw [getCycles, m]
    simp [Mc68k.init]
  refine ⟨?_, ?_, hm, ?_⟩
  · rw [r, List.map_map]
    apply List.map_congr_left
    intro c hc
    have := (hd c hc).1
    simp only [Function.comp, Int.ofNat_eq_coe]
    omega
  · rw [r, List.length_map]
  · rw [hm, ← hs]
    omega

/-- Witness of C11 with three plain blocks: the core reports 4, 10 and 6 cycles; the three
`exec()` calls return 4, 10 and 6 and `getCycles()` is 20 afterwards. -/
theorem cycle_accounting_witness :
    (peripheralsKeepCycles plain ∧
      (∀ c ∈ [coreRun 4, coreRun 10, coreRun 6], KeepsCycles c.effect) ∧
      (∀ c ∈ [coreRun 4, coreRun 10, coreRun 6], 1 ≤ c.deltaCycles ∧ c.deltaCycles < 2 ^ 32)) ∧
    (List.map Int.ofNat (execMany plain [coreRun 4, coreRun 10, coreRun 6] (Mc68k.init () () ())).1
      = [coreRun 4, coreRun 10, coreRun 6].map (fun c => c.deltaCycles) ∧
    (execMany plain [coreRun 4, coreRun 10, coreRun 6] (Mc68k.init () () ())).1.length
      = [coreRun 4, coreRun 10, coreRun 6].length ∧
    getCycles (execMany plain [coreRun 4, coreRun 10, coreRun 6] (Mc68k.init () () ())).2
      = ([coreRun 4, coreRun 10, coreRun 6].map fun c => c.deltaCycles.toNat).sum % 2 ^ 64 ∧
    (getCycles (execMany plain [coreRun 4, coreRun 10, coreRun 6]
        (Mc68k.init () () ())).2 : Int)
      = ([coreRun 4, coreRun 10, coreRun 6].map fun c => c.deltaCycles).sum % 2 ^ 64) ∧
    (execMany plain [coreRun 4, coreRun 10, coreRun 6] fresh).1 = [4, 10, 6] ∧
    getCycles (execMany plain [coreRun 4, coreRun 10, coreRun 6] fresh).2 = 20 :=
  have hplain : peripheralsKeepCycles plain := by
    refine ⟨?_, ?_, ?_⟩ <;>
      exact ⟨fun _ _ => rfl, fun _ _ => rfl, fun _ _ _ => rfl, fun _ _ _ => rfl,
        fun _ _ => rfl⟩
  have heff : ∀ c ∈ [coreRun 4, coreRun 10, coreRun 6], KeepsCycles c.effect := by
    intro c hc
    simp only [List.mem_cons, List.mem_singleton, List.not_mem_nil, or_false] at hc
    rcases hc with rfl | rfl | rfl <;> exact fun _ => rfl
  have hd : ∀ c ∈ [coreRun 4, coreRun 10, coreRun 6],
      1 ≤ c.deltaCycles ∧ c.deltaCycles < 2 ^ 32 := by
    intro c hc
    simp only [List.mem_cons, List.mem_singleton, List.not_mem_nil, or_false] at hc
    rcases hc with rfl | rfl | rfl <;> simp [coreRun]
  ⟨⟨hplain, heff, hd⟩,
    cycle_accounting plain hplain () () () [coreRun 4, coreRun 10, coreRun 6] heff hd,
    by decide, by decide⟩

/-- C12: peripheral advance per step.  Every `exec()` call invokes the execution core exactly
once, with `num_cycles = 1`, and then the `exec` member function of each of the three blocks
exactly once, in the order Timer, SystemIntegration, SerialQueue, each with exactly the value
that this `exec()` call returns (the reported delta as `uint32_t`).  The state handed to the
Timer, the first block, is the state the core left with `m_cycles` already increased by the
delta (modulo 2^64); each later block receives the state the block before it left, and the
state after `exec()` is the one the SerialQueue left. -/
theorem peripheral_advance_per_step (P : Peripherals (Mc68k G S Q))
    (core : CoreRun (Mc68k G S Q)) (s : Mc68k G S Q) :
    (exec P core s).calls =
      [ExecEvent.m68k_execute 1,
        ExecEvent.blockExec Block.gpt (exec P core s).ret,
        ExecEvent.blockExec Block.sim (exec P core s).ret,
        ExecEvent.blockExec Block.qsm (exec P core s).ret] ∧
    (exec P core s).ret = (core.deltaCycles % 2 ^ 32).toNat ∧
    ∃ s1 : Mc68k G S Q,
      s1.m_cycles = ((((core.effect s).m_cycles : Int) + core.deltaCycles) % 2 ^ 64).toNat ∧
      s1.m_cpuState = (core.effect s).m_cpuState ∧
      s1.m_pendingInterrupts = (core.effect s).m_pendingInterrupts ∧
      s1.m_gpt = (core.effect s).m_gpt ∧ s1.m_sim = (core.effect s).m_sim ∧
      s1.m_qsm = (core.effect s).m_qsm ∧
      (exec P core s).state =
        P.qsm.exec (P.sim.exec (P.gpt.exec s1 (exec P core s).ret) (exec P core s).ret)
          (exec P core s).ret := by
  refine ⟨rfl, rfl, ?_⟩
  let s0 := core.effect s
  have e : (exec P core s).state =
      P.qsm.exec (P.sim.exec (P.gpt.exec
        { s0 with m_cycles := (((s0.m_cycles : Int) + core.deltaCycles) % 2 ^ 64).toNat }
        (exec P core s).ret) (exec P core s).ret) (exec P core s).ret := rfl
  exact Exists.intro
    { s0 with m_cycles := (((s0.m_cycles : Int) + core.deltaCycles) % 2 ^ 64).toNat }
    ⟨rfl, rfl, rfl, rfl, rfl, rfl, e⟩

/-- Evaluation of `exec()` on probing blocks, from a fresh controller and a core that reports 7
cycles: each block logs the cycle counter it sees, the delta it is given and the lengths of
the three logs.  The Timer already sees the counter at 7 and empty logs, SystemIntegration
sees the Timer's log filled, SerialQueue sees both filled. -/
theorem exec_on_probes :
    (exec probes { deltaCycles := 7, effect := fun s => s } (Mc68k.init [] [] [])).ret = 7 ∧
    (exec probes { deltaCycles := 7, effect := fun s => s } (Mc68k.init [] [] [])).state.m_gpt
      = [7, 7, 0, 0, 0] ∧
    (exec probes { deltaCycles := 7, effect := fun s => s } (Mc68k.init [] [] [])).state.m_sim
      = [7, 7, 5, 0, 0] ∧
    (exec probes { deltaCycles := 7, effect := fun s => s } (Mc68k.init [] [] [])).state.m_qsm
      = [7, 7, 5, 5, 0] ∧
    (exec probes { deltaCycles := 7, effect := fun s => s } (Mc68k.init [] [] [])).calls
      = [ExecEvent.m68k_execute 1, ExecEvent.blockExec Block.gpt 7,
          ExecEvent.blockExec Block.sim 7, ExecEvent.blockExec Block.qsm 7] := by
  decide

/-! ## The cycle counter -/

theorem plain_keeps_cycles : peripheralsKeepCycles plain := by
  refine ⟨?_, ?_, ?_⟩ <;>
    exact ⟨fun _ _ => rfl, fun _ _ => rfl, fun _ _ _ => rfl, fun _ _ _ => rfl,
      fun _ _ => rfl⟩

theorem idleCore_keeps_cycles : coreKeepsCycles idleCore :=
  ⟨fun _ => rfl, fun _ _ => rfl⟩

/-- Router operations do not write `m_cycles` when the blocks do not. -/
theorem router_keeps_cycles (P : Peripherals (Mc68k G S Q)) (hP : peripheralsKeepCycles P)
    (s : Mc68k G S Q) (a x : Nat) :
    (read8 P s a).state.m_cycles = s.m_cycles ∧ (read16 P s a).state.m_cycles = s.m_cycles ∧
    (write8 P s a x).state.m_cycles = s.m_cycles ∧
    (write16 P s a x).state.m_cycles = s.m_cycles := by
  obtain ⟨⟨g1, g2, g3, g4, _⟩, ⟨s1, s2, s3, s4, _⟩, ⟨q1, q2, q3, q4, _⟩⟩ := hP
  simp only [KeepsCycles] at g1 g2 g3 g4 s1 s2 s3 s4 q1 q2 q3 q4
  refine ⟨?_, ?_, ?_, ?_⟩
  · simp only [read8]; split_ifs <;> simp [g1, s1, q1]
  · simp only [read16]; split_ifs <;> simp [g2, s2, q2]
  · simp only [write8]; split_ifs <;> simp [g3, s3, q3]
  · simp only [write16]; split_ifs <;> simp [g4, s4, q4]

/-- Repeating an `exec()` that reports `d` cycles `n` times adds `n * d` modulo 2^64. -/
theorem runPublicOps_exec_replicate (d : Nat) (n : Nat) (s : Bare) (hs : s.m_cycles < 2 ^ 64) :
    (runPublicOps plain idleCore s (List.replicate n (PublicOp.exec (coreRun d)))).map getCycles
      = some ((s.m_cycles + n * d) % 2 ^ 64) := by
  induction n generalizing s with
  | zero => simp [runPublicOps, getCycles]; omega
  | succ n ih =>
    have e1 := exec_cycles plain plain_keeps_cycles (coreRun d) (fun _ => rfl) s
    have hlt : (exec plain (coreRun d) s).state.m_cycles < 2 ^ 64 := by rw [e1]; omega
    simp only [List.replicate_succ, runPublicOps, runPublicOp]
    rw [ih _ hlt, e1]
    simp only [coreRun, Option.some.injEq]
    have : (n + 1) * d = n * d + d := by ring
    rw [this]
    generalize n * d = k
    omega

theorem runPublicOps_append (P : Peripherals (Mc68k G S Q))
    (core : ExecutionCore (Mc68k G S Q)) (ops ops2 : List (PublicOp (Mc68k G S Q)))
    (s : Mc68k G S Q) :
    runPublicOps P core s (ops ++ ops2)
      = (runPublicOps P core s ops).bind fun s1 => runPublicOps P core s1 ops2 := by
  induction ops generalizing s with
  | nil => rfl
  | cons op ops ih =>
    simp only [List.cons_append, runPublicOps]
    cases runPublicOp P core s op with
    | none => rfl
    | some s1 => exact ih s1

/-- Counterexample to C13: the 64-bit counter wraps.  From a freshly constructed controller,
12884901891 calls of `exec()` that each report 1431655765 cycles leave `getCycles()` at
2^64 - 1; one more `exec()` reporting 1 cycle leaves `getCycles()` at 0, which is smaller. -/
theorem cycle_counter_wraps :
    (runPublicOps plain idleCore fresh wrapRun).map getCycles = some 18446744073709551615 ∧
    (runPublicOps plain idleCore fresh (wrapRun ++ [PublicOp.exec (coreRun 1)])).map getCycles
      = some 0 ∧
    ¬ (18446744073709551615 ≤ 0) := by
  have h1 : (runPublicOps plain idleCore fresh wrapRun).map getCycles
      = some 18446744073709551615 := by
    have h := runPublicOps_exec_replicate 1431655765 12884901891 fresh (by decide)
    have e : (coreRun (1431655765 : Nat)) = coreRun 1431655765 := rfl
    rw [e] at h
    rw [wrapRun, h]
    rfl
  refine ⟨h1, ?_, by decide⟩
  rw [runPublicOps_append]
  cases hrun : runPublicOps plain idleCore fresh wrapRun with
  | none => rw [hrun] at h1; cases h1
  | some s =>
    rw [hrun] at h1
    have hs : getCycles s = 18446744073709551615 := Option.some.inj h1
    have e1 := exec_cycles plain plain_keeps_cycles (coreRun 1) (fun _ => rfl) s
    simp only [getCycles] at hs
    rw [hs] at e1
    show some (getCycles (exec plain (coreRun 1) s).state) = some 0
    rw [getCycles, e1]
    rfl

/-- C13, as amended: for every controller state and every public operation whose level
argument is in 0..7, the operation completes; every operation other than `exec()`
(`injectInterrupt`, `hasPendingInterrupt`, `readIrqUserVector`, `reset`, `setPC`, `read8`,
`read16`, `write8`, `write16`) leaves `getCycles()` unchanged; and an `exec()` whose reported
count is not negative and whose addition does not pass 2^64 - 1 adds exactly the reported
count, so that `getCycles()` afterwards is greater than or equal to `getCycles()` before.  The
core and the blocks are assumed not to write `m_cycles`. -/
theorem cycle_counter_monotone_until_wrap (P : Peripherals (Mc68k G S Q))
    (hP : peripheralsKeepCycles P) (core : ExecutionCore (Mc68k G S Q))
    (hcore : coreKeepsCycles core) (s : Mc68k G S Q) (op : PublicOp (Mc68k G S Q))
    (hlevel : op.levelInRange = true)
    (hexec : ∀ c, op = PublicOp.exec c →
      KeepsCycles c.effect ∧ 0 ≤ c.deltaCycles ∧ (s.m_cycles : Int) + c.deltaCycles < 2 ^ 64) :
    ∃ s1, runPublicOp P core s op = some s1 ∧
      getCycles s ≤ getCycles s1 ∧
      (op.isExec = false → getCycles s1 = getCycles s) ∧
      (∀ c, op = PublicOp.exec c → getCycles s1 = getCycles s + c.deltaCycles.toNat) := by
  have hr := router_keeps_cycles P hP s
  cases op with
  | exec c =>
    obtain ⟨hc, h0, hlt⟩ := hexec c rfl
    have e1 := exec_cycles P hP c hc s
    have e2 : getCycles (exec P c s).state = getCycles s + c.deltaCycles.toNat := by
      simp only [getCycles, e1]
      omega
    refine ⟨_, rfl, by omega, fun h => by simp [PublicOp.isExec] at h, ?_⟩
    intro c2 hc2
    cases hc2
    exact e2
  | injectInterrupt v l =>
    have hl : l < 8 := by simpa [PublicOp.levelInRange] using hlevel
    refine ⟨_, injectInterrupt_eq s v l hl, le_refl _, fun _ => rfl, fun c hc => by cases hc⟩
  | hasPendingInterrupt v l =>
    have hl : l < 8 := by simpa [PublicOp.levelInRange] using hlevel
    refine ⟨s, by simp [runPublicOp, hasPendingInterrupt, hl], le_refl _, fun _ => rfl,
      fun c hc => by cases hc⟩
  | readIrqUserVector l =>
    have hl : l < 8 := by simpa [PublicOp.levelInRange] using hlevel
    cases hq : s.m_pendingInterrupts ⟨l, hl⟩ with
    | nil =>
      refine ⟨s, by simp [runPublicOp, readIrqUserVector_nil s l hl hq], le_refl _,
        fun _ => rfl, fun c hc => by cases hc⟩
    | cons v rest =>
      have e : runPublicOp P core s (PublicOp.readIrqUserVector l)
          = some (m68k_set_irq
              (m68k_set_irq
                { s with m_pendingInterrupts :=
                    Function.update s.m_pendingInterrupts ⟨l, hl⟩ rest } 0)
              (highestPendingLevel (Function.update s.m_pendingInterrupts ⟨l, hl⟩ rest))) := by
        simp only [runPublicOp, readIrqUserVector_cons s l hl v rest hq, Option.map_some']
      exact ⟨_, e, le_refl _, fun _ => rfl, fun c hc => by cases hc⟩
  | reset =>
    have e : getCycles (reset core s) = getCycles s := hcore.1 s
    exact ⟨_, rfl, by omega, fun _ => e, fun c hc => by cases hc⟩
  | setPC pc =>
    have e : getCycles (setPC core s pc) = getCycles s := hcore.2 pc s
    exact ⟨_, rfl, by omega, fun _ => e, fun c hc => by cases hc⟩
  | read8 a =>
    have e : getCycles (read8 P s a).state = getCycles s := (hr a 0).1
    exact ⟨_, rfl, by omega, fun _ => e, fun c hc => by cases hc⟩
  | read16 a =>
    have e : getCycles (read16 P s a).state = getCycles s := (hr a 0).2.1
    exact ⟨_, rfl, by omega, fun _ => e, fun c hc => by cases hc⟩
  | write8 a x =>
    have e : getCycles (write8 P s a x).state = getCycles s := (hr a x).2.2.1
    exact ⟨_, rfl, by omega, fun _ => e, fun c hc => by cases hc⟩
  | write16 a x =>
    have e : getCycles (write16 P s a x).state = getCycles s := (hr a x).2.2.2
    exact ⟨_, rfl, by omega, fun _ => e, fun c hc => by cases hc⟩

/-- Witness of C13 as amended, on the controller `busy` (1000 cycles elapsed) with plain
blocks: an `exec()` reporting 12 cycles leaves `getCycles()` at 1012, and `reset()`, an
acknowledge and a bus write leave it at 1000. -/
theorem cycle_counter_monotone_until_wrap_witness :
    (peripheralsKeepCycles plain ∧ coreKeepsCycles idleCore ∧
      (PublicOp.exec (coreRun 12) : PublicOp Bare).levelInRange = true ∧
      ∀ c, PublicOp.exec (coreRun 12) = PublicOp.exec c →
        KeepsCycles c.effect ∧ 0 ≤ c.deltaCycles ∧
          (busy.m_cycles : Int) + c.deltaCycles < 2 ^ 64) ∧
    (∃ s1, runPublicOp plain idleCore busy (PublicOp.exec (coreRun 12)) = some s1 ∧
      getCycles busy ≤ getCycles s1 ∧
      ((PublicOp.exec (coreRun 12) : PublicOp Bare).isExec = false →
        getCycles s1 = getCycles busy) ∧
      (∀ c, PublicOp.exec (coreRun 12) = PublicOp.exec c →
        getCycles s1 = getCycles busy + c.deltaCycles.toNat)) ∧
    (runPublicOp plain idleCore busy (PublicOp.exec (coreRun 12))).map getCycles = some 1012 ∧
    (runPublicOp plain idleCore busy PublicOp.reset).map getCycles = some 1000 ∧
    (runPublicOp plain idleCore busy (PublicOp.readIrqUserVector 5)).map getCycles
      = some 1000 ∧
    (runPublicOp plain idleCore busy (PublicOp.write16 0x900 7)).map getCycles = some 1000 :=
  have hex : ∀ c, PublicOp.exec (coreRun 12) = PublicOp.exec c →
      KeepsCycles c.effect ∧ 0 ≤ c.deltaCycles ∧
        (busy.m_cycles : Int) + c.deltaCycles < 2 ^ 64 := by
    intro c hc
    cases hc
    exact ⟨fun _ => rfl, by decide, by decide⟩
  ⟨⟨plain_keeps_cycles, idleCore_keeps_cycles, rfl, hex⟩,
    cycle_counter_monotone_until_wrap plain plain_keeps_cycles idleCore idleCore_keeps_cycles
      busy (PublicOp.exec (coreRun 12)) rfl hex,
    by decide, by decide, by decide, by decide⟩

/-! ## Illegal-instruction hook -/

/-- C15: evaluation of the default `onIllegalInstruction` in both build modes.  With
assertions enabled the hook aborts the run for every opcode and hands nothing to the execution
core.  Compiled with `NDEBUG`, the assertion is gone and the hook returns 0 for every opcode,
for instance for 0x4AFC, so that `m68k_illegal_cbk` returns normally to the execution core. -/
theorem illegal_instruction_resumes_under_NDEBUG :
    onIllegalInstruction true 0x4AFC = Except.ok 0 ∧
    m68k_illegal_cbk true 0x4AFC = Except.ok 0 ∧
    (∀ opcode, onIllegalInstruction true opcode = Except.ok 0) ∧
    (∀ opcode, m68k_illegal_cbk true opcode = Except.ok 0) ∧
    (∀ opcode, onIllegalInstruction false opcode
      = Except.error "MC68331 illegal instruction") ∧
    (∀ opcode, m68k_illegal_cbk false opcode = Except.error "MC68331 illegal instruction") :=
  ⟨rfl, rfl, fun _ => rfl, fun _ => rfl, fun _ => rfl, fun _ => rfl⟩

/-! ## The process-wide slot -/

/-- The destructor's compare-and-swap: the slot is cleared when it holds the controller being
destroyed and is left as it is otherwise. -/
theorem Mc68k_dtor_eq (this : Nat) (slot : Option Nat) :
    Mc68k_dtor this slot = if slot = some this then none else slot := rfl

/-- While at most one controller is alive at a time and the slot holds the controller that is
alive (null when none is), the slot after every event is what the spec says. -/
theorem slotHistory_oneAtATime (events : List Lifetime) (alive : Option Nat)
    (h : oneAtATime alive events = true) :
    slotHistory alive events = events.map slotPerSpec ∧
    runLifetimes alive events = ((events.map slotPerSpec).getLast?).getD alive := by
  induction events generalizing alive with
  | nil => exact ⟨rfl, rfl⟩
  | cons e rest ih =>
    cases e with
    | construct this =>
      cases alive with
      | some a => simp [oneAtATime] at h
      | none =>
        have h2 : oneAtATime (some this) rest = true := by simpa [oneAtATime] using h
        obtain ⟨i1, i2⟩ := ih (some this) h2
        refine ⟨?_, ?_⟩
        · simp only [slotHistory, Mc68k_ctor, List.map_cons, slotPerSpec, i1]
        · simp only [runLifetimes, Mc68k_ctor, i2, List.map_cons, slotPerSpec]
          cases rest with
          | nil => rfl
          | cons r rs =>
            rw [List.getLast?_eq_getLast _ (List.cons_ne_nil _ _)]
            rfl
    | destroy this =>
      cases alive with
      | none => simp [oneAtATime] at h
      | some a =>
        have h1 : a = this ∧ oneAtATime none rest = true := by simpa [oneAtATime] using h
        obtain ⟨rfl, h2⟩ := h1
        obtain ⟨i1, i2⟩ := ih none h2
        have hd : Mc68k_dtor a (some a) = none := by
          simp [Mc68k_dtor, compare_exchange_strong]
        refine ⟨?_, ?_⟩
        · simp only [slotHistory, hd, List.map_cons, slotPerSpec, i1]
        · simp only [runLifetimes, hd, i2, List.map_cons, slotPerSpec]
          cases rest with
          | nil => rfl
          | cons r rs =>
            rw [List.getLast?_eq_getLast _ (List.cons_ne_nil _ _)]
            rfl

/-- C17: the process-wide callback slot.  Constructing a controller sets the slot to that
controller, whatever the slot held.  The destructor clears the slot by compare-and-swap against
the instance being destroyed: the slot becomes null when it holds that instance and is left as
it is otherwise.  In the supported regime, where at most one controller is alive at a time,
starting from the null slot, the slot after every construction holds the controller just
constructed and the slot after every destruction is null; in particular with a single
controller, constructed and then destroyed, the slot is null after its destruction. -/
theorem slot_set_on_construction_cleared_on_destruction (events : List Lifetime)
    (hregime : oneAtATime none events = true) (this : Nat) :
    slotHistory none events = events.map slotPerSpec ∧
    runLifetimes none events = ((events.map slotPerSpec).getLast?).getD none ∧
    (∀ slot, Mc68k_ctor this slot = some this) ∧
    Mc68k_dtor this (some this) = none ∧
    (∀ slot, Mc68k_dtor this slot = if slot = some this then none else slot) ∧
    (∀ slot, runLifetimes slot [Lifetime.construct this, Lifetime.destroy this] = none) := by
  obtain ⟨h1, h2⟩ := slotHistory_oneAtATime events none hregime
  refine ⟨h1, h2, fun _ => rfl, ?_, fun _ => rfl, ?_⟩
  · simp [Mc68k_dtor, compare_exchange_strong]
  · intro slot
    simp [runLifetimes, Mc68k_ctor, Mc68k_dtor, compare_exchange_strong]

/-- Witness of C17: controller 0x5000 is constructed and destroyed, then controller 0x6000 is
constructed and destroyed; the slot holds 0x5000, null, 0x6000, null in turn and is null at the
end. -/
theorem slot_set_on_construction_cleared_on_destruction_witness :
    oneAtATime none [Lifetime.construct 0x5000, Lifetime.destroy 0x5000,
      Lifetime.construct 0x6000, Lifetime.destroy 0x6000] = true ∧
    (slotHistory none [Lifetime.construct 0x5000, Lifetime.destroy 0x5000,
        Lifetime.construct 0x6000, Lifetime.destroy 0x6000]
      = [Lifetime.construct 0x5000, Lifetime.destroy 0x5000,
          Lifetime.construct 0x6000, Lifetime.destroy 0x6000].map slotPerSpec ∧
    runLifetimes none [Lifetime.construct 0x5000, Lifetime.destroy 0x5000,
        Lifetime.construct 0x6000, Lifetime.destroy 0x6000]
      = (([Lifetime.construct 0x5000, Lifetime.destroy 0x5000,
          Lifetime.construct 0x6000, Lifetime.destroy 0x6000].map slotPerSpec).getLast?).getD
          none ∧
    (∀ slot, Mc68k_ctor 0x5000 slot = some 0x5000) ∧
    Mc68k_dtor 0x5000 (some 0x5000) = none ∧
    (∀ slot, Mc68k_dtor 0x5000 slot = if slot = some 0x5000 then none else slot) ∧
    (∀ slot,
      runLifetimes slot [Lifetime.construct 0x5000, Lifetime.destroy 0x5000] = none)) ∧
    slotHistory none [Lifetime.construct 0x5000, Lifetime.destroy 0x5000,
        Lifetime.construct 0x6000, Lifetime.destroy 0x6000]
      = [some 0x5000, none, some 0x6000, none] ∧
    runLifetimes none [Lifetime.construct 0x5000, Lifetime.destroy 0x5000] = none ∧
    runLifetimes none [Lifetime.construct 0x5000] = some 0x5000 :=
  ⟨by decide,
    slot_set_on_construction_cleared_on_destruction
      [Lifetime.construct 0x5000, Lifetime.destroy 0x5000, Lifetime.construct 0x6000,
        Lifetime.destroy 0x6000] (by decide) 0x5000,
    by decide, by decide, by decide⟩

/-! ## The sentinel -/

/-- C19: the sentinel is unambiguous.  For every controller state whose queues hold bytes and
every level `l` in 0..7, `readIrqUserVector(l)` returns a value, and that value is AUTOVECTOR
if and only if level `l`'s queue was empty before the call; when the queue is `v :: rest` the
result is `v` itself (the byte zero-extended), at most 255 and different from AUTOVECTOR.  The
same holds through the callback `m68k_int_ack`, where AUTOVECTOR reads -1 as an `int`. -/
theorem sentinel_unambiguous (s : Mc68k G S Q) (l : Nat) (hl : l < 8)
    (hbytes : QueuesHoldBytes s.m_pendingInterrupts) :
    ∃ r s1, readIrqUserVector s l = some (r, s1) ∧
      (r = M68K_INT_ACK_AUTOVECTOR ↔ s.m_pendingInterrupts ⟨l, hl⟩ = []) ∧
      (∀ v rest, s.m_pendingInterrupts ⟨l, hl⟩ = v :: rest →
        r = v ∧ r ≤ 255 ∧ r ≠ M68K_INT_ACK_AUTOVECTOR) ∧
      ∃ ri, m68k_int_ack s (l : Int) = some (ri, s1) ∧
        (ri = -1 ↔ s.m_pendingInterrupts ⟨l, hl⟩ = []) ∧
        (s.m_pendingInterrupts ⟨l, hl⟩ ≠ [] → ri = (r : Int)) := by
  have hcast : ((l : Int) % 256).toNat = l := by omega
  cases hq : s.m_pendingInterrupts ⟨l, hl⟩ with
  | nil =>
    refine ⟨M68K_INT_ACK_AUTOVECTOR, s, readIrqUserVector_nil s l hl hq, by simp, ?_, ?_⟩
    · intro v rest h
      cases h
    · refine ⟨-1, ?_, by simp, fun h => absurd rfl h⟩
      simp only [m68k_int_ack, hcast, readIrqUserVector_nil s l hl hq, Option.map_some']
      rfl
  | cons v rest =>
    have hv : v < 256 := hbytes ⟨l, hl⟩ v (by rw [hq]; exact List.mem_cons_self _ _)
    have hne : v ≠ M68K_INT_ACK_AUTOVECTOR := by
      simp only [M68K_INT_ACK_AUTOVECTOR]
      omega
    refine ⟨v, _, readIrqUserVector_cons s l hl v rest hq, by simp [hne], ?_, ?_⟩
    · intro v2 rest2 h
      cases h
      exact ⟨rfl, by omega, hne⟩
    · refine ⟨(v : Int), ?_, ?_, fun _ => rfl⟩
      · simp only [m68k_int_ack, hcast, readIrqUserVector_cons s l hl v rest hq,
          Option.map_some']
        have h31 : v < 2147483648 := by omega
        simp [h31]
      · constructor
        · intro h
          omega
        · intro h
          cases h

/-- Witness of C19 on the controller `busy`: level 5 holds 0x19 and the acknowledge returns
0x19; level 4 is empty and the acknowledge returns 0xffffffff. -/
theorem sentinel_unambiguous_witness :
    (5 < 8 ∧ QueuesHoldBytes busy.m_pendingInterrupts) ∧
    (∃ r s1, readIrqUserVector busy 5 = some (r, s1) ∧
      (r = M68K_INT_ACK_AUTOVECTOR ↔ busy.m_pendingInterrupts ⟨5, by decide⟩ = []) ∧
      (∀ v rest, busy.m_pendingInterrupts ⟨5, by decide⟩ = v :: rest →
        r = v ∧ r ≤ 255 ∧ r ≠ M68K_INT_ACK_AUTOVECTOR) ∧
      ∃ ri, m68k_int_ack busy ((5 : Nat) : Int) = some (ri, s1) ∧
        (ri = -1 ↔ busy.m_pendingInterrupts ⟨5, by decide⟩ = []) ∧
        (busy.m_pendingInterrupts ⟨5, by decide⟩ ≠ [] → ri = (r : Int))) ∧
    (readIrqUserVector busy 5).map (fun r => r.1) = some 0x19 ∧
    (readIrqUserVector busy 4).map (fun r => r.1) = some 0xffffffff ∧
    (m68k_int_ack busy 4).map (fun r => r.1) = some (-1) :=
  have hb : QueuesHoldBytes busy.m_pendingInterrupts := by
    unfold QueuesHoldBytes
    decide
  ⟨⟨by decide, hb⟩, sentinel_unambiguous busy 5 (by decide) hb, by decide, by decide,
    by decide⟩

/-! ## Priority drain order -/

/-- Popping the front of the highest non-empty level pops the front of `pendingInOrder`. -/
theorem pendingInOrder_pop (q : Fin 8 → List Nat) (l : Fin 8) (hl : 1 ≤ l.val) (v : Nat)
    (rest : List Nat) (hq : q l = v :: rest) (habove : ∀ k : Fin 8, l.val < k.val → q k = []) :
    pendingInOrder q = v :: pendingInOrder (Function.update q l rest) := by
  have h7 : l.val < 7 → q 7 = [] := fun h => habove 7 h
  have h6 : l.val < 6 → q 6 = [] := fun h => habove 6 h
  have h5 : l.val < 5 → q 5 = [] := fun h => habove 5 h
  have h4 : l.val < 4 → q 4 = [] := fun h => habove 4 h
  have h3 : l.val < 3 → q 3 = [] := fun h => habove 3 h
  have h2 : l.val < 2 → q 2 = [] := fun h => habove 2 h
  fin_cases l
  · simp at hl
  all_goals
    simp at h7 h6 h5 h4 h3 h2 hq
    simp [pendingInOrder, Function.update, hq, *]

/-- With no pending vector at the levels 1..7, `pendingInOrder` is empty. -/
theorem pendingInOrder_nil (q : Fin 8 → List Nat)
    (h : ∀ k : Fin 8, 1 ≤ k.val → q k = []) : pendingInOrder q = [] := by
  simp [pendingInOrder, h 7 (by decide), h 6 (by decide), h 5 (by decide), h 4 (by decide),
    h 3 (by decide), h 2 (by decide), h 1 (by decide)]

/-- The drain loop on a state whose pin carries the highest pending level, by induction on
the number of calls allowed. -/
theorem drain_spec (fuel : Nat) (s : Mc68k G S Q)
    (hinv : s.m_cpuState.int_level = highestPendingLevel s.m_pendingInterrupts)
    (hfuel : (pendingInOrder s.m_pendingInterrupts).length ≤ fuel) :
    ∃ s1, drain fuel s = some (pendingInOrder s.m_pendingInterrupts, s1) ∧
      s1.m_cpuState.int_level = 0 ∧
      (∀ k : Fin 8, 1 ≤ k.val → s1.m_pendingInterrupts k = []) ∧
      s1.m_pendingInterrupts 0 = s.m_pendingInterrupts 0 ∧
      s1.m_cycles = s.m_cycles := by
  induction fuel generalizing s with
  | zero =>
    have hnil : pendingInOrder s.m_pendingInterrupts = [] :=
      List.length_eq_zero.mp (Nat.le_zero.mp hfuel)
    obtain ⟨hmax, hp⟩ := highestPendingLevel_spec s.m_pendingInterrupts
    have h0 : highestPendingLevel s.m_pendingInterrupts = 0 := by
      rcases hp with h | ⟨l, el, l1, lq⟩
      · exact h
      · exfalso
        cases hq : s.m_pendingInterrupts l with
        | nil => exact lq hq
        | cons v rest =>
          have hab : ∀ k : Fin 8, l.val < k.val → s.m_pendingInterrupts k = [] := by
            intro k hk
            by_contra hne
            have := hmax k (by omega) hne
            omega
          rw [pendingInOrder_pop _ l l1 v rest hq hab] at hnil
          cases hnil
    have hall : ∀ k : Fin 8, 1 ≤ k.val → s.m_pendingInterrupts k = [] := by
      intro k hk
      by_contra hne
      have := hmax k hk hne
      omega
    refine ⟨s, ?_, hinv.trans h0, hall, rfl, rfl⟩
    rw [hnil]
    unfold drain
    simp [hinv, h0]
  | succ fuel ih =>
    obtain ⟨hmax, hp⟩ := highestPendingLevel_spec s.m_pendingInterrupts
    rcases hp with h0 | ⟨l, el, l1, lq⟩
    · have hall : ∀ k : Fin 8, 1 ≤ k.val → s.m_pendingInterrupts k = [] := by
        intro k hk
        by_contra hne
        have := hmax k hk hne
        omega
      refine ⟨s, ?_, hinv.trans h0, hall, rfl, rfl⟩
      rw [pendingInOrder_nil _ hall]
      unfold drain
      simp [hinv, h0]
    · cases hq : s.m_pendingInterrupts l with
      | nil => exact absurd hq lq
      | cons v rest =>
        have hab : ∀ k : Fin 8, l.val < k.val → s.m_pendingInterrupts k = [] := by
          intro k hk
          by_contra hne
          have := hmax k (by omega) hne
          omega
        have hpop := pendingInOrder_pop _ l l1 v rest hq hab
        have hpin : s.m_cpuState.int_level = l.val := by rw [hinv, el]
        have hlt : l.val < 8 := l.isLt
        have hq2 : s.m_pendingInterrupts ⟨l.val, hlt⟩ = v :: rest := hq
        have hread := readIrqUserVector_cons s l.val hlt v rest hq2
        obtain ⟨s2, e2, p2, q2, z2, c2⟩ := ih
          (m68k_set_irq
            (m68k_set_irq
              { s with m_pendingInterrupts :=
                  Function.update s.m_pendingInterrupts ⟨l.val, hlt⟩ rest } 0)
            (highestPendingLevel (Function.update s.m_pendingInterrupts ⟨l.val, hlt⟩ rest)))
          rfl
          (by
            have hlen : (pendingInOrder s.m_pendingInterrupts).length
                = (pendingInOrder (Function.update s.m_pendingInterrupts l rest)).length + 1 := by
              rw [hpop]; rfl
            have : (pendingInOrder (Function.update s.m_pendingInterrupts l rest)).length
                ≤ fuel := by omega
            exact this)
        have hl0 : (0 : Fin 8) ≠ l := by
          intro h
          rw [← h] at l1
          simp at l1
        refine ⟨s2, ?_, p2, q2, ?_, ?_⟩
        · rw [hpop]
          unfold drain
          have hne : ¬ s.m_cpuState.int_level = 0 := by omega
          simp only [hne, if_false, hpin, hread]
          have e3 : drain fuel
              (m68k_set_irq
                (m68k_set_irq
                  { s with m_pendingInterrupts :=
                      Function.update s.m_pendingInterrupts ⟨l.val, hlt⟩ rest } 0)
                (highestPendingLevel
                  (Function.update s.m_pendingInterrupts ⟨l.val, hlt⟩ rest)))
              = some (pendingInOrder (Function.update s.m_pendingInterrupts l rest), s2) := e2
          rw [e3]
          have hl1 : ¬ l.val = 0 := by omega
          simp only [hl1, if_false]
        · rw [z2]
          show Function.update s.m_pendingInterrupts ⟨l.val, hlt⟩ rest 0 = _
          exact Function.update_noteq hl0 _ _
        · rw [c2]
          rfl

/-- Every vector that the drain loop returns cost one call. -/
theorem drain_length_le (fuel : Nat) (s : Mc68k G S Q) (vs : List Nat) (s1 : Mc68k G S Q)
    (h : drain fuel s = some (vs, s1)) : vs.length ≤ fuel := by
  induction fuel generalizing s vs s1 with
  | zero =>
    unfold drain at h
    by_cases h0 : s.m_cpuState.int_level = 0
    · simp only [h0, if_true, Option.some.injEq, Prod.mk.injEq] at h
      rw [← h.1]
      exact Nat.le_refl _
    · simp [h0] at h
  | succ fuel ih =>
    unfold drain at h
    by_cases h0 : s.m_cpuState.int_level = 0
    · simp only [h0, if_true, Option.some.injEq, Prod.mk.injEq] at h
      rw [← h.1]
      exact Nat.zero_le _
    · simp only [h0, if_false] at h
      cases hr : readIrqUserVector s s.m_cpuState.int_level with
      | none => simp [hr] at h
      | some r =>
        obtain ⟨v, s2⟩ := r
        simp only [hr] at h
        cases hd : drain fuel s2 with
        | none => simp [hd] at h
        | some r2 =>
          obtain ⟨vs2, s3⟩ := r2
          simp only [hd, Option.some.injEq, Prod.mk.injEq] at h
          have := ih s2 vs2 s3 hd
          rw [← h.1]
          simp only [List.length_cons]
          omega

/-- Allowing more calls does not change a completed drain. -/
theorem drain_mono (fuel : Nat) (s : Mc68k G S Q) (r : List Nat × Mc68k G S Q)
    (h : drain fuel s = some r) : drain (fuel + 1) s = some r := by
  induction fuel generalizing s r with
  | zero =>
    unfold drain at h ⊢
    by_cases h0 : s.m_cpuState.int_level = 0
    · simpa [h0] using h
    · simp [h0] at h
  | succ fuel ih =>
    unfold drain at h ⊢
    by_cases h0 : s.m_cpuState.int_level = 0
    · simpa [h0] using h
    · simp only [h0, if_false] at h ⊢
      cases hr : readIrqUserVector s s.m_cpuState.int_level with
      | none => simp [hr] at h
      | some r1 =>
        obtain ⟨v, s2⟩ := r1
        simp only [hr] at h ⊢
        cases hd : drain fuel s2 with
        | none => simp [hd] at h
        | some r2 =>
          rw [ih s2 r2 hd]
          simpa [hd] using h

theorem drain_mono_le (fuel fuel2 : Nat) (hle : fuel ≤ fuel2) (s : Mc68k G S Q)
    (r : List Nat × Mc68k G S Q) (h : drain fuel s = some r) : drain fuel2 s = some r := by
  induction hle with
  | refl => exact h
  | step _ ih => exact drain_mono _ s r ih

/-- C18: priority drain order.  From any state whose asserted IPL equals the highest non-empty
level in 1..7 (and whose queues hold bytes), acknowledging the asserted level until the
asserted IPL is 0 completes, given at least as many calls as there are pending vectors at the
levels 1..7, and does not complete with fewer; it returns exactly the vectors of level 7, then
6, and so on down to level 1, each level in injection (queue) order, one vector per call, so
the number of calls is the number of pending vectors; no returned value is AUTOVECTOR; at the
end the asserted IPL is 0, the queues of the levels 1..7 are empty and level 0's queue is
unchanged. -/
theorem priority_drain_order (s : Mc68k G S Q)
    (hinv : s.m_cpuState.int_level = highestPendingLevel s.m_pendingInterrupts)
    (hbytes : QueuesHoldBytes s.m_pendingInterrupts) (fuel : Nat)
    (hfuel : (s.m_pendingInterrupts 7).length + (s.m_pendingInterrupts 6).length +
      (s.m_pendingInterrupts 5).length + (s.m_pendingInterrupts 4).length +
      (s.m_pendingInterrupts 3).length + (s.m_pendingInterrupts 2).length +
      (s.m_pendingInterrupts 1).length ≤ fuel) :
    ∃ vs s1, drain fuel s = some (vs, s1) ∧
      vs = s.m_pendingInterrupts 7 ++ s.m_pendingInterrupts 6 ++ s.m_pendingInterrupts 5 ++
        s.m_pendingInterrupts 4 ++ s.m_pendingInterrupts 3 ++ s.m_pendingInterrupts 2 ++
        s.m_pendingInterrupts 1 ∧
      vs.length = (s.m_pendingInterrupts 7).length + (s.m_pendingInterrupts 6).length +
        (s.m_pendingInterrupts 5).length + (s.m_pendingInterrupts 4).length +
        (s.m_pendingInterrupts 3).length + (s.m_pendingInterrupts 2).length +
        (s.m_pendingInterrupts 1).length ∧
      (∀ fewer, fewer < vs.length → drain fewer s = none) ∧
      (∀ v ∈ vs, v ≠ M68K_INT_ACK_AUTOVECTOR) ∧
      s1.m_cpuState.int_level = 0 ∧
      (∀ k : Fin 8, 1 ≤ k.val → s1.m_pendingInterrupts k = []) ∧
      s1.m_pendingInterrupts 0 = s.m_pendingInterrupts 0 := by
  have hlen : (pendingInOrder s.m_pendingInterrupts).length
      = (s.m_pendingInterrupts 7).length + (s.m_pendingInterrupts 6).length +
        (s.m_pendingInterrupts 5).length + (s.m_pendingInterrupts 4).length +
        (s.m_pendingInterrupts 3).length + (s.m_pendingInterrupts 2).length +
        (s.m_pendingInterrupts 1).length := by
    simp only [pendingInOrder, List.length_append]
  obtain ⟨s1, e, p, q, z, _⟩ := drain_spec fuel s hinv (by omega)
  refine ⟨_, s1, e, rfl, hlen, ?_, ?_, p, q, z⟩
  · intro fewer hfewer
    cases hd : drain fewer s with
    | none => rfl
    | some r =>
      exfalso
      obtain ⟨vs2, s2⟩ := r
      have hle := drain_length_le fewer s vs2 s2 hd
      have hbig := drain_mono_le fewer (max fewer fuel) (le_max_left _ _) s _ hd
      have hbig2 := drain_mono_le fuel (max fewer fuel) (le_max_right _ _) s _ e
      rw [hbig] at hbig2
      have : vs2 = pendingInOrder s.m_pendingInterrupts := by
        have := Option.some.inj hbig2
        exact congrArg Prod.fst this
      rw [this] at hle
      omega
  · intro v hv
    have hv2 : ∃ l : Fin 8, v ∈ s.m_pendingInterrupts l := by
      simp only [pendingInOrder, List.mem_append] at hv
      rcases hv with ((((((h | h) | h) | h) | h) | h) | h)
      all_goals exact ⟨_, h⟩
    obtain ⟨l, hl⟩ := hv2
    have := hbytes l v hl
    simp only [M68K_INT_ACK_AUTOVECTOR]
    omega

/-- Witness of C18 on the controller `busy` (0x19 at level 5; 0x1A, 0x1B, 0x1A at level 3;
0x07 at level 0; pin at 5): four acknowledges return 0x19, 0x1A, 0x1B, 0x1A, the pin ends at
0, level 0 still holds 0x07, and three calls do not suffice. -/
theorem priority_drain_order_witness :
    (busy.m_cpuState.int_level = highestPendingLevel busy.m_pendingInterrupts ∧
      QueuesHoldBytes busy.m_pendingInterrupts ∧
      (busy.m_pendingInterrupts 7).length + (busy.m_pendingInterrupts 6).length +
        (busy.m_pendingInterrupts 5).length + (busy.m_pendingInterrupts 4).length +
        (busy.m_pendingInterrupts 3).length + (busy.m_pendingInterrupts 2).length +
        (busy.m_pendingInterrupts 1).length ≤ 4) ∧
    (∃ vs s1, drain 4 busy = some (vs, s1) ∧
      vs = busy.m_pendingInterrupts 7 ++ busy.m_pendingInterrupts 6 ++
        busy.m_pendingInterrupts 5 ++ busy.m_pendingInterrupts 4 ++
        busy.m_pendingInterrupts 3 ++ busy.m_pendingInterrupts 2 ++
        busy.m_pendingInterrupts 1 ∧
      vs.length = (busy.m_pendingInterrupts 7).length + (busy.m_pendingInterrupts 6).length +
        (busy.m_pendingInterrupts 5).length + (busy.m_pendingInterrupts 4).length +
        (busy.m_pendingInterrupts 3).length + (busy.m_pendingInterrupts 2).length +
        (busy.m_pendingInterrupts 1).length ∧
      (∀ fewer, fewer < vs.length → drain fewer busy = none) ∧
      (∀ v ∈ vs, v ≠ M68K_INT_ACK_AUTOVECTOR) ∧
      s1.m_cpuState.int_level = 0 ∧
      (∀ k : Fin 8, 1 ≤ k.val → s1.m_pendingInterrupts k = []) ∧
      s1.m_pendingInterrupts 0 = busy.m_pendingInterrupts 0) ∧
    (drain 4 busy).map
        (fun r => (r.1, r.2.m_cpuState.int_level, r.2.m_pendingInterrupts 0))
      = some ([0x19, 0x1A, 0x1B, 0x1A], 0, [0x07]) ∧
    (drain 3 busy).map (fun r => r.1) = none :=
  have hb : QueuesHoldBytes busy.m_pendingInterrupts := by
    unfold QueuesHoldBytes
    decide
  ⟨⟨by decide, hb, by decide⟩, priority_drain_order busy (by decide) hb 4 (by decide),
    by decide, by decide⟩

/-! ## Disassembly dump -/

/-- The `strstr` comparison of the source is a test for a leading occurrence. -/
theorem startsWith_eq_isPrefixOf (disasm search : List Char) :
    startsWith disasm search = search.isPrefixOf disasm := by
  cases disasm with
  | nil =>
    by_cases h : search.isPrefixOf [] = true
    · simp [startsWith, strstr, h]
    · simp only [Bool.not_eq_true] at h
      simp [startsWith, strstr, h]
  | cons c rest =>
    by_cases h : search.isPrefixOf (c :: rest) = true
    · simp [startsWith, strstr, h]
    · simp only [Bool.not_eq_true] at h
      cases hs : strstr rest search <;> simp [startsWith, strstr, h, hs]

/-- One iteration of the loop appends the dump entry of the instruction at `i`. -/
theorem dump_iteration_output (MCHEXN6 : Nat → List Char)
    (disassemble : Nat → List Char × Nat) (f : List Char) (i : Nat) :
    (if startsWith (disassemble i).1 "rts".toList || startsWith (disassemble i).1 "bra ".toList
          || startsWith (disassemble i).1 "jmp ".toList then
        f ++ MCHEXN6 i ++ [':', ' '] ++ (disassemble i).1 ++ [Char.ofNat 10] ++ [Char.ofNat 10]
      else f ++ MCHEXN6 i ++ [':', ' '] ++ (disassemble i).1 ++ [Char.ofNat 10])
      = f ++ dumpEntry MCHEXN6 disassemble i := by
  simp only [startsWith_eq_isPrefixOf, dumpEntry, instructionLine, endsBlock]
  split_ifs <;> simp [List.append_assoc]

/-- Whatever the loop has written when it finishes is one dump entry per decoded instruction,
in decoding order. -/
theorem dumpAssembly_loop_output (MCHEXN6 : Nat → List Char)
    (disassemble : Nat → List Char × Nat) (last fuel i : Nat) (st st1 : DumpState)
    (h : dumpAssembly_loop MCHEXN6 disassemble last fuel i st = some st1) :
    ∃ dec, st1.decoded = st.decoded ++ dec ∧
      st1.f = st.f ++ (dec.map fun p => dumpEntry MCHEXN6 disassemble p.1).flatten ∧
      ∀ p ∈ dec, p.2 = (disassemble p.1).2 := by
  induction fuel generalizing i st with
  | zero =>
    unfold dumpAssembly_loop at h
    by_cases hi : i < last
    · simp [hi] at h
    · simp only [hi, if_false, Option.some.injEq] at h
      subst h
      exact ⟨[], by simp, by simp, by simp⟩
  | succ fuel ih =>
    unfold dumpAssembly_loop at h
    by_cases hi : i < last
    · simp only [hi, if_true] at h
      rw [dump_iteration_output MCHEXN6 disassemble st.f i] at h
      obtain ⟨dec, hd, hf, hs⟩ := ih _ _ h
      refine ⟨(i, (disassemble i).2) :: dec, ?_, ?_, ?_⟩
      · rw [hd]; simp
      · rw [hf]
        simp only [List.map_cons, List.flatten_cons, List.append_assoc]
      · intro p hp
        rcases List.mem_cons.mp hp with rfl | hp
        · rfl
        · exact hs p hp
    · simp only [hi, if_false, Option.some.injEq] at h
      subst h
      exact ⟨[], by simp, by simp, by simp⟩

/-- Without wrap-around of the 32-bit loop variable the loop finishes within `last - i`
iterations and decodes in the order described by `DecodedFrom`. -/
theorem dumpAssembly_loop_decodes (MCHEXN6 : Nat → List Char)
    (disassemble : Nat → List Char × Nat) (last maxLen : Nat) (hlast : last < 2 ^ 32)
    (hlen : ∀ a, (disassemble a).2 ≤ maxLen) (hno : last + maxLen ≤ 2 ^ 32)
    (fuel i : Nat) (st : DumpState) (hfuel : last - i ≤ fuel) :
    ∃ dec, DecodedFrom disassemble last i dec ∧
      dumpAssembly_loop MCHEXN6 disassemble last fuel i st
        = some { f := st.f ++ (dec.map fun p => dumpEntry MCHEXN6 disassemble p.1).flatten
                 decoded := st.decoded ++ dec } := by
  induction fuel generalizing i st with
  | zero =>
    have hi : ¬ i < last := by omega
    refine ⟨[], DecodedFrom.done i (by omega), ?_⟩
    unfold dumpAssembly_loop
    simp [hi]
  | succ fuel ih =>
    by_cases hi : i < last
    · have hsz := hlen i
      have hadv : (if (disassemble i).2 = 0 then (i + 1) % 2 ^ 32
          else (i + (disassemble i).2) % 2 ^ 32) = i + advance (disassemble i).2 := by
        unfold advance
        by_cases h0 : (disassemble i).2 = 0
        · simp only [h0, if_true]
          omega
        · simp only [h0, if_false]
          omega
      have hadv1 : 1 ≤ advance (disassemble i).2 := by
        unfold advance
        split_ifs <;> omega
      obtain ⟨dec, hdec, hrun⟩ := ih (i + advance (disassemble i).2)
        { f := st.f ++ dumpEntry MCHEXN6 disassemble i
          decoded := st.decoded ++ [(i, (disassemble i).2)] } (by omega)
      refine ⟨(i, (disassemble i).2) :: dec, DecodedFrom.step i hi dec hdec, ?_⟩
      unfold dumpAssembly_loop
      simp only [hi, if_true]
      rw [dump_iteration_output MCHEXN6 disassemble st.f i, hadv, hrun]
      simp only [List.map_cons, List.flatten_cons, List.append_assoc, List.singleton_append]
    · refine ⟨[], DecodedFrom.done i (by omega), ?_⟩
      unfold dumpAssembly_loop
      simp [hi]

/-- What `DecodedFrom` says about the decoded addresses. -/
theorem DecodedFrom.facts {disassemble : Nat → List Char × Nat} {last i : Nat}
    {dec : List (Nat × Nat)} (h : DecodedFrom disassemble last i dec) :
    (dec = [] ↔ last ≤ i) ∧
    (i < last → dec.head? = some (i, (disassemble i).2)) ∧
    List.Chain' (fun p q => q.1 = p.1 + advance p.2) dec ∧
    (∀ p ∈ dec, i ≤ p.1 ∧ p.1 < last ∧ p.2 = (disassemble p.1).2) ∧
    (∀ p, dec.getLast? = some p → last ≤ p.1 + advance p.2) := by
  induction h with
  | done i h =>
    refine ⟨by simp [h], fun hi => by omega, List.chain'_nil, by simp, by simp⟩
  | step i h rest hrest ih =>
    obtain ⟨e1, e2, e3, e4, e5⟩ := ih
    have hadv1 : 1 ≤ advance (disassemble i).2 := by
      unfold advance
      split_ifs <;> omega
    refine ⟨by simp; omega, fun _ => rfl, ?_, ?_, ?_⟩
    · rw [List.chain'_cons']
      refine ⟨?_, e3⟩
      intro b hb
      cases rest with
      | nil => simp at hb
      | cons r rs =>
        simp only [List.head?_cons, Option.mem_def, Option.some.injEq] at hb
        subst hb
        have hlt : i + advance (disassemble i).2 < last := by
          by_contra hge
          have := e1.mpr (by omega)
          cases this
        have := e2 hlt
        simp only [List.head?_cons, Option.some.injEq] at this
        rw [this]
    · intro p hp
      rcases List.mem_cons.mp hp with rfl | hp
      · exact ⟨le_refl _, h, rfl⟩
      · obtain ⟨a, b, c⟩ := e4 p hp
        exact ⟨by omega, b, c⟩
    · intro p hp
      cases rest with
      | nil =>
        simp only [List.getLast?_singleton, Option.some.injEq] at hp
        subst hp
        have := e1.mp rfl
        exact this
      | cons r rs =>
        rw [List.getLast?_cons_cons] at hp
        exact e5 p hp

/-- The decoding order from an address is unique. -/
theorem DecodedFrom.deterministic {disassemble : Nat → List Char × Nat} {last i : Nat}
    {dec dec2 : List (Nat × Nat)} (h : DecodedFrom disassemble last i dec)
    (h2 : DecodedFrom disassemble last i dec2) : dec = dec2 := by
  induction h generalizing dec2 with
  | done i hi =>
    cases h2 with
    | done _ _ => rfl
    | step _ hlt _ _ => omega
  | step i hi rest _ ih =>
    cases h2 with
    | done _ hge => omega
    | step _ _ rest2 hrest2 => rw [ih hrest2]

/-- A completed dump of an opened file: return value, text and decoded instructions. -/
theorem dumpAssembly_opened (MCHEXN6 : Nat → List Char) (disassemble : Nat → List Char × Nat)
    (fuel _first _count : Nat) (_splitFunctions : Bool) (r : DumpResult)
    (h : dumpAssembly MCHEXN6 disassemble fuel true _first _count _splitFunctions = some r) :
    r.ret = true ∧
    r.f = (r.decoded.map fun p => dumpEntry MCHEXN6 disassemble p.1).flatten ∧
    ∀ p ∈ r.decoded, p.2 = (disassemble p.1).2 := by
  have h2 : (match dumpAssembly_loop MCHEXN6 disassemble ((_first + _count) % 2 ^ 32) fuel
        _first { f := [], decoded := [] } with
      | none => none
      | some st => some ({ ret := true, f := st.f, decoded := st.decoded } : DumpResult))
      = some r := h
  cases hl : dumpAssembly_loop MCHEXN6 disassemble ((_first + _count) % 2 ^ 32) fuel _first
      { f := [], decoded := [] } with
  | none =>
    rw [hl] at h2
    cases h2
  | some st =>
    rw [hl] at h2
    have h3 : ({ ret := true, f := st.f, decoded := st.decoded } : DumpResult) = r :=
      Option.some.inj h2
    obtain ⟨dec, hd, hf, hs⟩ := dumpAssembly_loop_output _ _ _ _ _ _ _ hl
    subst h3
    simp only [List.nil_append] at hd hf
    refine ⟨rfl, ?_, ?_⟩
    · simp only [hf, hd]
    · simp only [hd]
      exact hs

/-- Without wrap-around the dump of an opened file finishes within `_count` iterations and
decodes in the order described by `DecodedFrom`. -/
theorem dumpAssembly_terminates (MCHEXN6 : Nat → List Char)
    (disassemble : Nat → List Char × Nat) (_first _count maxLen : Nat)
    (_splitFunctions : Bool) (hbound : _first + _count < 2 ^ 32)
    (hlen : ∀ a, (disassemble a).2 ≤ maxLen) (hno : _first + _count + maxLen ≤ 2 ^ 32) :
    ∃ dec, DecodedFrom disassemble (_first + _count) _first dec ∧
      ∀ fuel, _count ≤ fuel →
        dumpAssembly MCHEXN6 disassemble fuel true _first _count _splitFunctions
          = some { ret := true
                   f := (dec.map fun p => dumpEntry MCHEXN6 disassemble p.1).flatten
                   decoded := dec } := by
  have hmod : (_first + _count) % 2 ^ 32 = _first + _count := Nat.mod_eq_of_lt hbound
  obtain ⟨dec, hdec, _⟩ := dumpAssembly_loop_decodes MCHEXN6 disassemble (_first + _count)
    maxLen hbound hlen hno _count _first { f := [], decoded := [] } (by omega)
  refine ⟨dec, hdec, ?_⟩
  intro fuel hfuel
  obtain ⟨dec2, hdec2, hrun2⟩ := dumpAssembly_loop_decodes MCHEXN6 disassemble
    (_first + _count) maxLen hbound hlen hno fuel _first { f := [], decoded := [] } (by omega)
  have e := DecodedFrom.deterministic hdec2 hdec
  subst e
  have e2 : dumpAssembly MCHEXN6 disassemble fuel true _first _count _splitFunctions
      = (match dumpAssembly_loop MCHEXN6 disassemble ((_first + _count) % 2 ^ 32) fuel
          _first { f := [], decoded := [] } with
        | none => none
        | some st => some ({ ret := true, f := st.f, decoded := st.decoded } : DumpResult)) :=
    rfl
  rw [e2, hmod, hrun2]
  simp only [List.nil_append]

/-- C14: disassembly dump layout.  When the destination does not open, `dumpAssembly` returns
false and writes nothing.  When it opens, a completed dump returns true and its text is, for
each decoded instruction in decoding order, exactly one line `<hex-address>: <text>` followed
by a newline, and directly after that line a blank line when the disassembly text begins with
`rts`, `bra ` or `jmp ` and nothing otherwise; so for every decoded instruction whose text
begins with one of these the line followed by a blank line occurs in the output.  A completed
dump returns false exactly when the destination could not be opened.  The dump completes
(within `_count` iterations) whenever the 32-bit loop variable cannot wrap around. -/
theorem dump_layout (MCHEXN6 : Nat → List Char) (disassemble : Nat → List Char × Nat)
    (fuel _first _count : Nat) (_splitFunctions : Bool) :
    dumpAssembly MCHEXN6 disassemble fuel false _first _count _splitFunctions
      = some { ret := false, f := [], decoded := [] } ∧
    (∀ r, dumpAssembly MCHEXN6 disassemble fuel true _first _count _splitFunctions = some r →
      r.ret = true ∧
      r.f = (r.decoded.map fun p =>
        instructionLine MCHEXN6 disassemble p.1 ++
          (if endsBlock (disassemble p.1).1 then [Char.ofNat 10] else [])).flatten ∧
      (∀ p ∈ r.decoded, p.2 = (disassemble p.1).2) ∧
      (∀ p ∈ r.decoded, endsBlock (disassemble p.1).1 = true →
        (instructionLine MCHEXN6 disassemble p.1 ++ [Char.ofNat 10]) <:+: r.f)) ∧
    (∀ is_open r,
      dumpAssembly MCHEXN6 disassemble fuel is_open _first _count _splitFunctions = some r →
      (r.ret = false ↔ is_open = false)) ∧
    (∀ maxLen, _first + _count < 2 ^ 32 → (∀ a, (disassemble a).2 ≤ maxLen) →
      _first + _count + maxLen ≤ 2 ^ 32 →
      ∃ r, r.ret = true ∧ ∀ more, _count ≤ more →
        dumpAssembly MCHEXN6 disassemble more true _first _count _splitFunctions = some r) := by
  refine ⟨rfl, ?_, ?_, ?_⟩
  · intro r hr
    obtain ⟨h1, h2, h3⟩ := dumpAssembly_opened _ _ _ _ _ _ r hr
    refine ⟨h1, h2, h3, ?_⟩
    intro p hp hend
    rw [h2]
    apply List.infix_of_mem_flatten
    apply List.mem_map.mpr
    exact ⟨p, hp, by simp [dumpEntry, hend]⟩
  · intro is_open r hr
    cases is_open with
    | false =>
      have : r = { ret := false, f := [], decoded := [] } := by
        have h0 : dumpAssembly MCHEXN6 disassemble fuel false _first _count _splitFunctions
            = some { ret := false, f := [], decoded := [] } := rfl
        rw [h0] at hr
        exact (Option.some.inj hr).symm
      rw [this]
    | true =>
      have := (dumpAssembly_opened _ _ _ _ _ _ r hr).1
      simp [this]
  · intro maxLen hbound hlen hno
    obtain ⟨dec, _, hrun⟩ := dumpAssembly_terminates MCHEXN6 disassemble _first _count
      maxLen _splitFunctions hbound hlen hno
    exact ⟨_, rfl, hrun⟩

/-- Witness of C14 with the sample disassembler: the six bytes from 0x100 hold one `rts`; the
dump has three instruction lines and a blank line directly after the `rts` line (and after the
`jmp` line); with the destination not opened the result is false. -/
theorem dump_layout_witness :
    (dumpAssembly hex6 sampleDisassembler 10 false 0x100 6 true
      = some { ret := false, f := [], decoded := [] } ∧
    (∀ r, dumpAssembly hex6 sampleDisassembler 10 true 0x100 6 true = some r →
      r.ret = true ∧
      r.f = (r.decoded.map fun p =>
        instructionLine hex6 sampleDisassembler p.1 ++
          (if endsBlock (sampleDisassembler p.1).1 then [Char.ofNat 10] else [])).flatten ∧
      (∀ p ∈ r.decoded, p.2 = (sampleDisassembler p.1).2) ∧
      (∀ p ∈ r.decoded, endsBlock (sampleDisassembler p.1).1 = true →
        (instructionLine hex6 sampleDisassembler p.1 ++ [Char.ofNat 10]) <:+: r.f)) ∧
    (∀ is_open r,
      dumpAssembly hex6 sampleDisassembler 10 is_open 0x100 6 true = some r →
      (r.ret = false ↔ is_open = false)) ∧
    (∀ maxLen, 0x100 + 6 < 2 ^ 32 → (∀ a, (sampleDisassembler a).2 ≤ maxLen) →
      0x100 + 6 + maxLen ≤ 2 ^ 32 →
      ∃ r, r.ret = true ∧ ∀ more, 6 ≤ more →
        dumpAssembly hex6 sampleDisassembler more true 0x100 6 true = some r)) ∧
    (dumpAssembly hex6 sampleDisassembler 10 true 0x100 6 true).map
        (fun r => (r.ret, r.f, r.decoded))
      = some (true,
          "000100: moveq   #$0, D0\n000102: rts\n\n000104: jmp     $1234.w\n\n".toList,
          [(0x100, 2), (0x102, 2), (0x104, 4)]) ∧
    instructionLine hex6 sampleDisassembler 0x102 ++ [Char.ofNat 10] = "000102: rts\n\n".toList :=
  ⟨dump_layout hex6 sampleDisassembler 10 0x100 6 true, by decide, by decide⟩

/-- C20: the `_splitFunctions` flag has no effect.  For every destination (opened or not),
`_first`, `_count`, disassembler and number of iterations allowed, `dumpAssembly` with
`_splitFunctions = false` gives exactly what it gives with `_splitFunctions = true`.  With
either value of the flag: a destination that does not open gives false and no text; a completed
dump of an opened destination returns true and its text is, per decoded instruction, the
instruction line followed directly by a blank line when the text begins with `rts`, `bra ` or
`jmp `, so the line followed by the blank line occurs in the output for every such
instruction.  Whenever the 32-bit loop variable cannot wrap around, the dump completes within
`_count` iterations, with one and the same result for both values of the flag: it returns
true, the decoded instructions are those of the decoding order from `_first` up to
`_first + _count` (the first one at `_first` when `_count` is not 0), and the text holds their
lines and the blank separator lines. -/
theorem splitFunctions_has_no_effect (MCHEXN6 : Nat → List Char)
    (disassemble : Nat → List Char × Nat) (fuel : Nat) (is_open : Bool)
    (_first _count : Nat) :
    dumpAssembly MCHEXN6 disassemble fuel is_open _first _count false
      = dumpAssembly MCHEXN6 disassemble fuel is_open _first _count true ∧
    (∀ _splitFunctions : Bool,
      dumpAssembly MCHEXN6 disassemble fuel false _first _count _splitFunctions
        = some { ret := false, f := [], decoded := [] }) ∧
    (∀ (_splitFunctions : Bool) (r : DumpResult),
      dumpAssembly MCHEXN6 disassemble fuel true _first _count _splitFunctions = some r →
      r.ret = true ∧
      r.f = (r.decoded.map fun p =>
        instructionLine MCHEXN6 disassemble p.1 ++
          (if endsBlock (disassemble p.1).1 then [Char.ofNat 10] else [])).flatten ∧
      (∀ p ∈ r.decoded, endsBlock (disassemble p.1).1 = true →
        (instructionLine MCHEXN6 disassemble p.1 ++ [Char.ofNat 10]) <:+: r.f)) ∧
    (∀ maxLen, _first + _count < 2 ^ 32 → (∀ a, (disassemble a).2 ≤ maxLen) →
      _first + _count + maxLen ≤ 2 ^ 32 →
      ∃ r : DumpResult, r.ret = true ∧
        DecodedFrom disassemble (_first + _count) _first r.decoded ∧
        (0 < _count → r.decoded.head? = some (_first, (disassemble _first).2)) ∧
        r.f = (r.decoded.map fun p =>
          instructionLine MCHEXN6 disassemble p.1 ++
            (if endsBlock (disassemble p.1).1 then [Char.ofNat 10] else [])).flatten ∧
        (∀ p ∈ r.decoded, endsBlock (disassemble p.1).1 = true →
          (instructionLine MCHEXN6 disassemble p.1 ++ [Char.ofNat 10]) <:+: r.f) ∧
        ∀ (_splitFunctions : Bool) (more : Nat), _count ≤ more →
          dumpAssembly MCHEXN6 disassemble more true _first _count _splitFunctions
            = some r) := by
  have hsep : ∀ (dec : List (Nat × Nat)) (p : Nat × Nat), p ∈ dec →
      endsBlock (disassemble p.1).1 = true →
      (instructionLine MCHEXN6 disassemble p.1 ++ [Char.ofNat 10])
        <:+: (dec.map fun p => dumpEntry MCHEXN6 disassemble p.1).flatten := by
    intro dec p hp hend
    apply List.infix_of_mem_flatten
    apply List.mem_map.mpr
    exact ⟨p, hp, by simp [dumpEntry, hend]⟩
  refine ⟨rfl, fun _ => rfl, ?_, ?_⟩
  · intro sf r hr
    obtain ⟨h1, h2, _⟩ := dumpAssembly_opened _ _ _ _ _ _ r hr
    refine ⟨h1, h2, ?_⟩
    intro p hp hend
    rw [h2]
    exact hsep r.decoded p hp hend
  · intro maxLen hbound hlen hno
    obtain ⟨dec, hdec, hrun⟩ := dumpAssembly_terminates MCHEXN6 disassemble _first _count
      maxLen true hbound hlen hno
    refine ⟨{ ret := true
              f := (dec.map fun p => dumpEntry MCHEXN6 disassemble p.1).flatten
              decoded := dec }, rfl, hdec, ?_, rfl, ?_, ?_⟩
    · intro h0
      exact hdec.facts.2.1 (by omega)
    · intro p hp hend
      exact hsep dec p hp hend
    · intro sf more hmore
      have e : dumpAssembly MCHEXN6 disassemble more true _first _count sf
          = dumpAssembly MCHEXN6 disassemble more true _first _count true := rfl
      rw [e]
      exact hrun more hmore

/-- Witness of C20 with the sample disassembler (longest size 4) on the six bytes from 0x100,
which hold an `rts` and end in a `jmp`: with the flag false and with the flag true the dump
completes, returns true and writes the same text, with a blank line directly after the `rts`
line and after the `jmp` line. -/
theorem splitFunctions_has_no_effect_witness :
    (0x100 + 6 < 2 ^ 32 ∧ (∀ a, (sampleDisassembler a).2 ≤ 4) ∧ 0x100 + 6 + 4 ≤ 2 ^ 32) ∧
    (∃ r : DumpResult, r.ret = true ∧
      DecodedFrom sampleDisassembler (0x100 + 6) 0x100 r.decoded ∧
      (0 < 6 → r.decoded.head? = some (0x100, (sampleDisassembler 0x100).2)) ∧
      r.f = (r.decoded.map fun p =>
        instructionLine hex6 sampleDisassembler p.1 ++
          (if endsBlock (sampleDisassembler p.1).1 then [Char.ofNat 10] else [])).flatten ∧
      (∀ p ∈ r.decoded, endsBlock (sampleDisassembler p.1).1 = true →
        (instructionLine hex6 sampleDisassembler p.1 ++ [Char.ofNat 10]) <:+: r.f) ∧
      ∀ (_splitFunctions : Bool) (more : Nat), 6 ≤ more →
        dumpAssembly hex6 sampleDisassembler more true 0x100 6 _splitFunctions = some r) ∧
    dumpAssembly hex6 sampleDisassembler 10 true 0x100 6 false
      = dumpAssembly hex6 sampleDisassembler 10 true 0x100 6 true ∧
    (dumpAssembly hex6 sampleDisassembler 10 true 0x100 6 false).map
        (fun r => (r.ret, r.f, r.decoded))
      = some (true,
          "000100: moveq   #$0, D0\n000102: rts\n\n000104: jmp     $1234.w\n\n".toList,
          [(0x100, 2), (0x102, 2), (0x104, 4)]) ∧
    (dumpAssembly hex6 sampleDisassembler 10 true 0x100 6 true).map
        (fun r => (r.ret, r.f, r.decoded))
      = some (true,
          "000100: moveq   #$0, D0\n000102: rts\n\n000104: jmp     $1234.w\n\n".toList,
          [(0x100, 2), (0x102, 2), (0x104, 4)]) ∧
    (dumpAssembly hex6 sampleDisassembler 10 false 0x100 6 false).map
        (fun r => (r.ret, r.f, r.decoded))
      = some (false, [], []) :=
  have hlen : ∀ a, (sampleDisassembler a).2 ≤ 4 := by
    intro a
    unfold sampleDisassembler
    split_ifs <;> decide
  ⟨⟨by decide, hlen, by decide⟩,
    (splitFunctions_has_no_effect hex6 sampleDisassembler 10 true 0x100 6).2.2.2 4
      (by decide) hlen (by decide),
    rfl, by decide, by decide, by decide⟩

/-- Counterexample to C16, with a disassembler that reports size 0 everywhere (longest
instruction length 0).  For `_first = 0`, `_count = 1` the only decoded instruction is at
address 0 with size 0: it ends at 0, before `_first + _count = 1`.  For `_first = 2^32 - 4`,
`_count = 4` the sum `_first + _count` plus the longest length is 2^32, which does not exceed
2^32, but the 32-bit bound wraps to 0 and nothing is decoded although `_count` is not 0. -/
theorem dump_zero_size_counterexample :
    (dumpAssembly hex6 zeroSizeDisassembler 1 true 0 1 true).map (fun r => r.decoded)
      = some [(0, 0)] ∧
    ¬ (0 + 1 ≤ 0 + (zeroSizeDisassembler 0).2) ∧
    (4294967292 + 4 + 0 ≤ 2 ^ 32 ∧ ∀ a, (zeroSizeDisassembler a).2 ≤ 0) ∧
    (dumpAssembly hex6 zeroSizeDisassembler 0 true 4294967292 4 true).map
        (fun r => (r.ret, r.f, r.decoded))
      = some (true, [], []) :=
  ⟨by decide, by decide, ⟨by decide, fun _ => Nat.le_refl _⟩, by decide⟩

/-- C16, as amended: for every `_first` and `_count` with `_first + _count` below 2^32 and
`_first + _count` plus the longest instruction length not exceeding 2^32, and every
disassembler, the `dumpAssembly` loop terminates (within `_count` iterations, with the same
result for every larger allowance).  With `_count = 0` nothing is decoded and no line is
written; otherwise the first decoded address is `_first`; each next decoded address is the
previous address plus the previous instruction's advance, which is its size, or 1 when the
disassembler reports size 0; every decoded address is at least `_first` and strictly below
`_first + _count`; and the last decoded address plus its advance is at or past
`_first + _count`, overhanging it by at most the advance minus one.  When the last
instruction's size is not 0 the advance is the size, so it ends at or past `_first + _count`,
overhanging by at most its size minus one. -/
theorem dump_range_coverage (MCHEXN6 : Nat → List Char)
    (disassemble : Nat → List Char × Nat) (_first _count maxLen : Nat)
    (_splitFunctions : Bool) (hbound : _first + _count < 2 ^ 32)
    (hlen : ∀ a, (disassemble a).2 ≤ maxLen) (hno : _first + _count + maxLen ≤ 2 ^ 32) :
    ∃ r, (∀ fuel, _count ≤ fuel →
        dumpAssembly MCHEXN6 disassemble fuel true _first _count _splitFunctions = some r) ∧
      r.ret = true ∧
      (_count = 0 → r.decoded = [] ∧ r.f = []) ∧
      (0 < _count → r.decoded.head? = some (_first, (disassemble _first).2)) ∧
      List.Chain' (fun p q => q.1 = p.1 + advance p.2) r.decoded ∧
      (∀ p ∈ r.decoded, _first ≤ p.1 ∧ p.1 < _first + _count ∧ p.2 = (disassemble p.1).2) ∧
      (∀ p, r.decoded.getLast? = some p →
        _first + _count ≤ p.1 + advance p.2 ∧
        p.1 + advance p.2 - (_first + _count) ≤ advance p.2 - 1) ∧
      (∀ p, r.decoded.getLast? = some p → 1 ≤ p.2 →
        _first + _count ≤ p.1 + p.2 ∧ p.1 + p.2 - (_first + _count) ≤ p.2 - 1) := by
  obtain ⟨dec, hdec, hrun⟩ := dumpAssembly_terminates MCHEXN6 disassemble _first _count
    maxLen _splitFunctions hbound hlen hno
  obtain ⟨f1, f2, f3, f4, f5⟩ := hdec.facts
  have hlast : ∀ p, dec.getLast? = some p →
      _first + _count ≤ p.1 + advance p.2 ∧
      p.1 + advance p.2 - (_first + _count) ≤ advance p.2 - 1 := by
    intro p hp
    have h1 := f5 p hp
    have h2 := (f4 p (List.mem_of_getLast?_eq_some hp)).2.1
    exact ⟨h1, by omega⟩
  refine ⟨_, hrun, rfl, ?_, ?_, f3, f4, hlast, ?_⟩
  · intro h0
    have : dec = [] := f1.mpr (by omega)
    simp [this]
  · intro h0
    exact f2 (by omega)
  · intro p hp h1
    have := hlast p hp
    have hadv : advance p.2 = p.2 := by
      unfold advance
      split_ifs <;> omega
    rw [hadv] at this
    exact this

/-- Witness of C16 as amended with the sample disassembler (longest size 4): the six bytes from
0x100 are decoded at 0x100, 0x102 and 0x104; the last instruction, of size 4, ends at 0x108 and
overhangs the bound 0x106 by 2.  With `_count = 0` nothing is written. -/
theorem dump_range_coverage_witness :
    (0x100 + 6 < 2 ^ 32 ∧ (∀ a, (sampleDisassembler a).2 ≤ 4) ∧ 0x100 + 6 + 4 ≤ 2 ^ 32) ∧
    (∃ r, (∀ fuel, 6 ≤ fuel →
        dumpAssembly hex6 sampleDisassembler fuel true 0x100 6 true = some r) ∧
      r.ret = true ∧
      (6 = 0 → r.decoded = [] ∧ r.f = []) ∧
      (0 < 6 → r.decoded.head? = some (0x100, (sampleDisassembler 0x100).2)) ∧
      List.Chain' (fun p q => q.1 = p.1 + advance p.2) r.decoded ∧
      (∀ p ∈ r.decoded, 0x100 ≤ p.1 ∧ p.1 < 0x100 + 6 ∧ p.2 = (sampleDisassembler p.1).2) ∧
      (∀ p, r.decoded.getLast? = some p →
        0x100 + 6 ≤ p.1 + advance p.2 ∧
        p.1 + advance p.2 - (0x100 + 6) ≤ advance p.2 - 1) ∧
      (∀ p, r.decoded.getLast? = some p → 1 ≤ p.2 →
        0x100 + 6 ≤ p.1 + p.2 ∧ p.1 + p.2 - (0x100 + 6) ≤ p.2 - 1)) ∧
    (dumpAssembly hex6 sampleDisassembler 6 true 0x100 6 true).map (fun r => r.decoded)
      = some [(0x100, 2), (0x102, 2), (0x104, 4)] ∧
    (dumpAssembly hex6 sampleDisassembler 0 true 0x100 0 true).map
        (fun r => (r.ret, r.f, r.decoded))
      = some (true, [], []) :=
  have hlen : ∀ a, (sampleDisassembler a).2 ≤ 4 := by
    intro a
    unfold sampleDisassembler
    split_ifs <;> decide
  ⟨⟨by decide, hlen, by decide⟩,
    dump_range_coverage hex6 sampleDisassembler 0x100 6 4 true (by decide) hlen (by decide),
    by decide, by decide⟩

end mc68k
